import Mathlib

/-!
Verification of the m2c translation core (src/backend/m2c/src/translate.py)
against its natural-language specification.

Each section shallowly embeds one part of the Python source:
pure functions become Lean functions, mutable objects become explicit state
records with state-transformer functions, and fallible code returns Except.
Line numbers in comments refer to translate.py.

The C type system, the instruction decoder, the flow-graph builder and the
final pretty-printer are external collaborators of the translation core
(spec section 1); where one of their queries appears inside embedded code it
is modelled by the value it takes on the inputs the claims quantify over,
with a comment at the definition.
-/

namespace M2C

/-! ## EvalOnceExpr usage protocol (translate.py lines 1694-1770)

`EvalOnceExpr` wraps one expression plus a backing `Var`, and carries the
mutable flags `forced_emit` and `is_used`; the backing Var carries the
mutable flag `is_emitted`.  `use()` and `force()` mutate this state.
The state of one wrapper (together with its var, and a counter of how many
`use()` calls have been forwarded to the wrapped expression) is modelled as
a record, and `use` / `force` as state transformers translated line by line
from the source. -/

/-- State of one EvalOnceExpr object together with its backing Var
(`var_is_emitted` is the Var field `is_emitted`) and the number of times a
`use()` call has been forwarded to `wrapped_expr` (`wrapped_uses`). -/
structure EvalOnceExpr where
  /-- True for function calls/errors (fixed at construction). -/
  emit_exactly_once : Bool
  /-- Fixed at construction, from `is_trivial_expression`. -/
  trivial : Bool
  /-- Fixed at construction, from `should_wrap_transparently`. -/
  transparent : Bool
  forced_emit : Bool := false
  is_used : Bool := false
  var_is_emitted : Bool := false
  wrapped_uses : Nat := 0
  deriving DecidableEq, Repr

/-- EvalOnceExpr.use (translate.py lines 1734-1747).  Forwarding a use to the
wrapped expression (`self.wrapped_expr.use()`) increments `wrapped_uses`.
The trailing unconditional `self.is_used = True` of line 1747 is folded into
each branch of the if/elif/else. -/
def EvalOnceExpr.use (e : EvalOnceExpr) : EvalOnceExpr :=
  if e.trivial || (e.transparent && !e.var_is_emitted) then
    -- Forward uses through transparent wrappers (unless we have stopped
    -- being transparent)
    { e with wrapped_uses := e.wrapped_uses + 1, is_used := true }
  else if !e.is_used then
    -- On first use, forward the use (except in the emit_exactly_once
    -- case where that has already happened).
    if !e.emit_exactly_once then
      { e with wrapped_uses := e.wrapped_uses + 1, is_used := true }
    else
      { e with is_used := true }
  else
    -- On second use, make sure a var gets emitted.
    { e with var_is_emitted := true, is_used := true }

/-- EvalOnceExpr.force (translate.py lines 1749-1761): transition to opaque,
and mark as used multiple times to force a var. -/
def EvalOnceExpr.force (e : EvalOnceExpr) : EvalOnceExpr :=
  if !e.forced_emit && !e.trivial then
    ({ e with forced_emit := true, var_is_emitted := true }).use.use
  else
    e

/-- EvalOnceExpr.uses_var (translate.py lines 1763-1764). -/
def EvalOnceExpr.uses_var (e : EvalOnceExpr) : Bool :=
  e.var_is_emitted && !e.trivial

/-- A freshly constructed wrapper that is transparent but not trivial, as
`_eval_once` (lines 4130-4192) creates for example for register moves. -/
def sampleTransparent : EvalOnceExpr :=
  { emit_exactly_once := false, trivial := false, transparent := true }

/-- A freshly constructed opaque wrapper (neither transparent nor trivial),
as `_eval_once` creates for ordinary computed values. -/
def sampleOpaque : EvalOnceExpr :=
  { emit_exactly_once := false, trivial := false, transparent := false }

/-- A freshly constructed trivial wrapper (literals, globals). -/
def sampleTrivial : EvalOnceExpr :=
  { emit_exactly_once := false, trivial := true, transparent := true }

end M2C

namespace M2C

/-- Claim C1, counterexample: the claim states that for every EvalOnceExpr a
second `use()` forces the backing Var to be emitted, and that a transparent
wrapper becomes opaque on its second use.  For a transparent non-trivial
wrapper this is false: both uses take the first branch of `use()` (line 1735,
`self.transparent and not self.var.is_emitted`), which only forwards to the
wrapped expression; `var.is_emitted` stays false and the wrapper stays
transparent no matter how many times it is used. -/
theorem C1_counterexample :
    sampleTransparent.transparent = true ∧
    sampleTransparent.var_is_emitted = false ∧
    sampleTransparent.use.use.var_is_emitted = false ∧
    sampleTransparent.use.use.wrapped_uses = 2 := by decide

/-- Claim C1, amended: (1) from a fresh state (not yet used, var not emitted)
a single `use()` never emits the backing Var; (2) for a wrapper that is
neither transparent nor trivial, a second `use()` marks the backing Var
emitted; (3) a trivial wrapper, or a still-transparent wrapper whose var is
unemitted, forwards every use to the wrapped expression and never changes
the emission state through `use()` (only `force()` can make it opaque). -/
theorem C1_use_protocol :
    (∀ e : EvalOnceExpr, e.is_used = false → e.var_is_emitted = false →
      e.use.var_is_emitted = false) ∧
    (∀ e : EvalOnceExpr, e.transparent = false → e.trivial = false →
      e.use.use.var_is_emitted = true) ∧
    (∀ e : EvalOnceExpr, e.trivial = true ∨ (e.transparent = true ∧ e.var_is_emitted = false) →
      e.use.wrapped_uses = e.wrapped_uses + 1 ∧
      e.use.var_is_emitted = e.var_is_emitted ∧
      e.use.forced_emit = e.forced_emit) := by
  refine ⟨?_, ?_, ?_⟩
  · rintro ⟨eeo, tr, trans, fe, iu, ve, wu⟩ h1 h2
    cases eeo <;> cases tr <;> cases trans <;> cases fe <;> cases iu <;> cases ve <;>
      first
      | rfl
      | exact Bool.noConfusion h1
      | exact Bool.noConfusion h2
  · rintro ⟨eeo, tr, trans, fe, iu, ve, wu⟩ h1 h2
    cases eeo <;> cases tr <;> cases trans <;> cases fe <;> cases iu <;> cases ve <;>
      first
      | rfl
      | exact Bool.noConfusion h1
      | exact Bool.noConfusion h2
  · rintro ⟨eeo, tr, trans, fe, iu, ve, wu⟩ h
    refine ⟨?_, ?_, ?_⟩ <;>
      (cases eeo <;> cases tr <;> cases trans <;> cases fe <;> cases iu <;> cases ve <;>
        first
        | rfl
        | (exfalso
           rcases h with h | ⟨h1, h2⟩
           · exact Bool.noConfusion h
           · first
             | exact Bool.noConfusion h1
             | exact Bool.noConfusion h2))

/-- Witness for C1_use_protocol at concrete inputs. -/
theorem C1_use_protocol_witness :
    sampleOpaque.use.var_is_emitted = false ∧
    sampleOpaque.use.use.var_is_emitted = true ∧
    sampleTransparent.use.wrapped_uses = 1 :=
  ⟨C1_use_protocol.1 sampleOpaque rfl rfl,
   C1_use_protocol.2.1 sampleOpaque rfl rfl,
   (C1_use_protocol.2.2 sampleTransparent (Or.inr ⟨rfl, rfl⟩)).1⟩

/-- Claim C9: `force()` is idempotent (a second call leaves the wrapper, its
backing Var and the wrapped-expression use count exactly as after the first
call), and on a wrapper whose `trivial` flag is set `force()` changes no
state at all, in particular it never emits the backing Var. -/
theorem C9_force_idempotent :
    (∀ e : EvalOnceExpr, e.force.force = e.force) ∧
    (∀ e : EvalOnceExpr, e.trivial = true → e.force = e) := by
  constructor
  · rintro ⟨eeo, tr, trans, fe, iu, ve, wu⟩
    cases eeo <;> cases tr <;> cases trans <;> cases fe <;> cases iu <;> cases ve <;> rfl
  · rintro ⟨eeo, tr, trans, fe, iu, ve, wu⟩ h
    cases tr
    · exact Bool.noConfusion h
    · cases eeo <;> cases trans <;> cases fe <;> cases iu <;> cases ve <;> rfl

/-- Witness for C9_force_idempotent at a concrete input. -/
theorem C9_force_idempotent_witness :
    sampleTrivial.force = sampleTrivial :=
  C9_force_idempotent.2 sampleTrivial rfl

end M2C

namespace M2C

/-! ## Expression snapshots (translate.py lines 745-1836)

A snapshot of an expression tree at one point in time, as pattern-matched by
the peephole simplifiers and the phi resolver.  Python compares some
expression classes structurally (`eq=True` dataclasses: Literal, Cast,
LocalVar, PassedInArg, SubroutineArg, StructAccess, AddressOf) and the rest
by object identity (`eq=False`: BinaryOp, UnaryOp, CarryBit, ErrorExpr,
FuncCall, EvalOnceExpr, NaivePhiExpr, PlannedPhiExpr, SecondF64Half).
Object identity is modelled by a `uid` field on the identity-compared
constructors: distinct objects carry distinct uids, the same object is the
same uid.  GlobalSymbol is identity-compared but interned per name by
GlobalInfo, so its name is its identity.  `type` fields are not compared by
any of the structural classes (all are `compare=False`) except Cast, whose
comparison uses expr/reinterpret/silent only; the C type system itself is an
external collaborator (spec section 1) and only surfaces below through the
boolean queries that the embedded functions make (`tyIsInt` on casts,
`is_floating` on binary operations).  FuncCall argument lists do not
participate in any embedded pattern match and are omitted. -/

inductive Expr : Type where
  | Lit (value : Int)
  | GSym (name : String)
  | LocalV (value : Int)
  | PassedIn (value : Int)
  | SubArg (value : Int)
  | StructAcc (base : Expr) (offset : Int)
  | AddrOf (e : Expr)
  | CastE (e : Expr) (reinterpret : Bool) (silent : Bool) (tyIsInt : Bool)
  | CarryB (uid : Nat)
  | SecondHalf (uid : Nat)
  | ErrorE (uid : Nat) (desc : Option String)
  | FuncCallE (uid : Nat)
  | UnOp (uid : Nat) (op : String) (e : Expr)
  | BinOp (uid : Nat) (op : String) (left : Expr) (right : Expr)
  | EvalOnce (uid : Nat) (wrapped : Expr)
      (trivial transparent emit_exactly_once forced_emit var_is_emitted : Bool)
  | NaivePhi (uid : Nat)
  | PlannedPhi (uid : Nat)
  deriving DecidableEq, Repr

/-- BinaryOp.is_floating (lines 1006-1007) asks the external type system
whether both operand types are floats.  The claims below quantify over the
integer fragment only, where this is false. -/
def Expr.is_floating (_ : Expr) : Bool := false

/-- early_unwrap (lines 2677-2690): unwrap EvalOnceExpr layers, even past
variable boundaries, stopping at forced or emit-exactly-once wrappers. -/
def early_unwrap : Expr → Expr
  | .EvalOnce uid w tr tp eeo forced ve =>
      if !forced && !eeo then early_unwrap w
      else .EvalOnce uid w tr tp eeo forced ve
  | e => e

/-- early_unwrap_ints (lines 2693-2701): like early_unwrap, but also unwrap
reinterpreting casts to integer types.  The Python function first calls
early_unwrap and then recurses through a matching Cast; since early_unwrap
returns either a non-EvalOnceExpr or a stopped EvalOnceExpr, the composition
is equal to this direct structural recursion. -/
def early_unwrap_ints : Expr → Expr
  | .EvalOnce uid w tr tp eeo forced ve =>
      if !forced && !eeo then early_unwrap_ints w
      else .EvalOnce uid w tr tp eeo forced ve
  | .CastE inner r s tyInt =>
      if r && tyInt then early_unwrap_ints inner
      else .CastE inner r s tyInt
  | e => e

/-- EvalOnceExpr.uses_var on a snapshot (lines 1763-1764). -/
def Expr.uses_var : Expr → Bool
  | .EvalOnce _ _ tr _ _ _ ve => ve && !tr
  | _ => false

/-- transparent_unwrap (lines 2663-2674): unwrap transparent EvalOnceExpr
layers that do not use their variable. -/
def transparent_unwrap : Expr → Expr
  | .EvalOnce uid w tr tp eeo forced ve =>
      if tp && !(ve && !tr) then transparent_unwrap w
      else .EvalOnce uid w tr tp eeo forced ve
  | e => e

/-- Python `a << n` for nonnegative n; a negative shift count raises in
Python (such inputs crash the source and are outside every claim). -/
def intShl (a : Int) (n : Int) : Int := a * 2 ^ n.toNat

/-- round_div (translate.py lines 3389-3395), the closure inside fold_divmod:

    def round_div(x, y):
        if y <= 1: return None
        result = round(x / y)
        if x / (y + 1) <= result <= x / (y - 1): return result
        return None

Python computes round(x / y) with binary64 float division; for the
magnitudes fold_divmod supplies (x a power of two below 2^45, y a positive
32-bit literal) the float quotient rounds to the same nearest integer as the
exact rational, and the two tolerance comparisons agree with exact rational
comparisons, because the quotient is never within one double ulp of a
half-integer or of an integer it does not equal.  The function is therefore
embedded with exact integer arithmetic: round-half-even of the rational x/y
(Python // and % are floor division and nonnegative remainder for y > 0,
i.e. Int.ediv and Int.emod), and cross-multiplied tolerance comparisons
(valid since y + 1 > 0 and y - 1 > 0). -/
def round_div (x y : Int) : Option Int :=
  if y ≤ 1 then none
  else
    let q := Int.ediv x y
    let r := Int.emod x y
    let result : Int :=
      if 2 * r < y then q
      else if y < 2 * r then q + 1
      else if Int.emod q 2 = 0 then q else q + 1
    if x ≤ result * (y + 1) ∧ result * (y - 1) ≤ x then some result else none

/-- BinaryOp.int (lines 885-889).  In the integer fragment the as_intish
coercions are silent successful unifications that return their argument
unchanged (as_type, lines 112-117, first branch).  The constructed node is a
fresh object; it carries uid 0, and every pre-existing node in the inputs of
the theorems below carries a uid of at least 1, so a fresh node is not
identical to any pre-existing one. -/
def BinaryOp.int (left : Expr) (op : String) (right : Expr) : Expr :=
  .BinOp 0 op left right

/-- BinaryOp.sint (lines 960-969); structurally the same node as
BinaryOp.int in this embedding, since only types differ. -/
def BinaryOp.sint (left : Expr) (op : String) (right : Expr) : Expr :=
  .BinOp 0 op left right

/-- Blocks of fold_divmod from line 3349 to the end (lines 3349-3406):
"shift on the result of the mul" (with MULT_HI normalization and inner
addition removal), "shift on the LHS of the mul", and the final
reconstruction through round_div.  `exprOp` is the op of the Python variable
`expr`; `left_expr`/`right_expr`/`divisor_shift` are the current values of
the like-named Python variables. -/
def fold_divmod_tail (original_expr : Expr) (exprOp : String)
    (left_expr right_expr : Expr) (divisor_shift : Int) : Expr :=
  -- Shift on the result of the mul: MULT_HI(x, N) >> M, shift the divisor by M
  let st :=
    match exprOp, left_expr, right_expr with
    | ">>", .BinOp _gu gop gl gr, .Lit m =>
      let divisor_shift := divisor_shift + m
      let left_expr := early_unwrap_ints gl
      let right_expr := early_unwrap_ints gr
      -- Normalize MULT_HI(N, x) to MULT_HI(x, N)
      let swap :=
        match left_expr, right_expr with
        | .Lit _, .Lit _ => false
        | .Lit _, _ => true
        | _, _ => false
      let left_expr' := if swap then right_expr else left_expr
      let right_expr' := if swap then left_expr else right_expr
      -- Remove inner addition: (MULT_HI(x, N) + x) >> M --> MULT_HI(x, N) >> M
      match gop, left_expr' with
      | "+", .BinOp _iu "MULT_HI" il ir =>
        if early_unwrap_ints il == right_expr' then
          ("MULT_HI", early_unwrap_ints il, early_unwrap_ints ir, divisor_shift)
        else
          (gop, left_expr', right_expr', divisor_shift)
      | _, _ => (gop, left_expr', right_expr', divisor_shift)
    | _, _, _ => (exprOp, left_expr, right_expr, divisor_shift)
  let exprOp := st.1
  let left_expr := st.2.1
  let right_expr := st.2.2.1
  let divisor_shift := st.2.2.2
  -- Shift on the LHS of the mul: MULT_HI(x >> M, N) --> MULT_HI(x, N) >> M
  let st2 :=
    if exprOp = "MULT_HI" ∨ exprOp = "MULTU_HI" then
      match left_expr with
      | .BinOp _ ">>" sl (.Lit k) => (early_unwrap_ints sl, divisor_shift + k)
      | _ => (left_expr, divisor_shift)
    else (left_expr, divisor_shift)
  let left_expr := st2.1
  let divisor_shift := st2.2
  -- Final reconstruction via round_div
  if exprOp = "MULT_HI" ∨ exprOp = "MULTU_HI" then
    match right_expr with
    | .Lit m =>
      match round_div (intShl 1 (32 + divisor_shift)) m with
      | some denom => BinaryOp.int left_expr "/" (.Lit denom)
      | none => original_expr
    | _ => original_expr
  else original_expr

/-- Blocks of fold_divmod from line 3284 to 3347: "dividing by a negative"
(which swaps left_expr and right_expr), both "remove outer error term"
blocks, falling through to fold_divmod_tail. -/
def fold_divmod_mid (original_expr : Expr) (op0 : String)
    (left_expr right_expr : Expr) : Expr :=
  -- Detect dividing by a negative: ((x >> 31) - (x / N)) --> x / -N
  let sw :=
    match op0, left_expr, right_expr with
    | "-", .BinOp su ">>" sl sr, .BinOp du "/" dl (.Lit n) =>
      if early_unwrap_ints sr == Expr.Lit 31 then
        (Expr.BinOp du "/" dl (.Lit (-n)), Expr.BinOp su ">>" sl sr)
      else (left_expr, right_expr)
    | _, _, _ => (left_expr, right_expr)
  let left_expr := sw.1
  let right_expr := sw.2
  -- Remove outer error term: ((x / N) + ((x / N) >> 31)) --> x / N
  -- As N gets close to (1 << 30), this is no longer a negligible error term
  match op0, left_expr, right_expr with
  | "+", .BinOp lu "/" dl (.Lit n), .BinOp ru ">>" rl rr =>
    if n ≤ intShl 1 29 ∧ early_unwrap_ints rl == Expr.BinOp lu "/" dl (.Lit n) ∧
        early_unwrap_ints rr == Expr.Lit 31 then
      Expr.BinOp lu "/" dl (.Lit n)
    else
      fold_divmod_tail original_expr op0 left_expr right_expr 0
  -- Remove outer error term: ((x / N) - (x >> 31)) --> x / N
  | "-", .BinOp lu "/" dl dr, .BinOp ru ">>" rl rr =>
    if (match dr with | .Lit _ => true | _ => false) &&
        (early_unwrap_ints rr == Expr.Lit 31) then
      let shift_var_expr := early_unwrap_ints rl
      let div_var_expr := early_unwrap_ints dl
      -- Check if the LHS of the shift is the same var that we are dividing by
      if div_var_expr == shift_var_expr then
        if (match dr with | .Lit v => decide (intShl 1 30 ≤ v) | _ => false) then
          BinaryOp.int dl "/" dr
        else
          Expr.BinOp lu "/" dl dr
      else
        -- If the var is under 32 bits, the error term may look like
        -- `(x << K) >> 31` instead
        match shift_var_expr with
        | .BinOp _ "<<" svl (.Lit _) =>
          if early_unwrap_ints dl == early_unwrap_ints svl then
            Expr.BinOp lu "/" dl dr
          else
            fold_divmod_tail original_expr op0 left_expr right_expr 0
        | _ => fold_divmod_tail original_expr op0 left_expr right_expr 0
    else
      fold_divmod_tail original_expr op0 left_expr right_expr 0
  | _, _, _ => fold_divmod_tail original_expr op0 left_expr right_expr 0

/-- fold_divmod (translate.py lines 3205-3406), blocks up to line 3282:
floating/op guard, "signed power-of-two division", "fold / with >>",
"detect %", falling through to fold_divmod_mid.  The Python signature takes
and returns a BinaryOp; non-BinaryOp input is returned unchanged. -/
def fold_divmod (original_expr : Expr) : Expr :=
  match original_expr with
  | .BinOp u0 op0 l0 r0 =>
    if original_expr.is_floating ∨
        (op0 ≠ "MULT_HI" ∧ op0 ≠ "MULTU_HI" ∧ op0 ≠ "-" ∧ op0 ≠ "+" ∧ op0 ≠ ">>") then
      original_expr
    else
      let left_expr := early_unwrap_ints l0
      let right_expr := early_unwrap_ints r0
      -- Detect signed power-of-two division: (x >> N) + M2C_CARRY --> x / (1 << N)
      match op0, left_expr, right_expr with
      | "+", .BinOp _ ">>" sl (.Lit n), .CarryB _ =>
        BinaryOp.sint sl "/" (.Lit (intShl 1 n))
      | _, _, _ =>
        -- Fold `/` with `>>`: ((x / N) >> M) --> x / (N << M)
        let stepB :=
          match op0, left_expr, right_expr with
          | ">>", .BinOp _ "/" dl (.Lit n), .Lit m =>
            let new_denom := intShl n m
            if new_denom < intShl 1 32 then some (BinaryOp.int dl "/" (.Lit new_denom))
            else none
          | _, _, _ => none
        match stepB with
        | some res => res
        | none =>
          -- Detect `%`: (x - ((x / y) * y)) --> x % y
          let stepC :=
            match op0, right_expr with
            | "-", .BinOp _ "*" ml mr =>
              (match early_unwrap_ints ml with
              | .BinOp _ dop ddl ddr =>
                if early_unwrap_ints ddl == left_expr then
                  -- Accept either `(x / y) * y` or `(x >> N) * M` (where 1 << N == M)
                  let divisor := early_unwrap_ints ddr
                  let mod_base := early_unwrap_ints mr
                  if (dop == "/" && divisor == mod_base) ||
                      (dop == ">>" &&
                        (match divisor, mod_base with
                        | .Lit dv, .Lit mv => decide (intShl 1 dv = mv)
                        | _, _ => false)) then
                    some (BinaryOp.int left_expr "%" mr)
                  else none
                else none
              | _ => none)
            | _, _ => none
          match stepC with
          | some res => res
          | none => fold_divmod_mid original_expr op0 left_expr right_expr
  | e => e

end M2C

namespace M2C

/-! ## Division folding round trip (Claim C7) -/

/-- Ceiling of log2: the smallest k with d at most 2^k (for d up to 2^33). -/
def ceilLog2 (d : Nat) : Nat :=
  ((List.range 34).filter (fun k => d ≤ 2 ^ k)).headD 34

/-- Modelled from the spec: the halving loop of the reference compiler
multiplier selection (choose_multiplier in GCC 2.7.2 expmed.c, the generator
named by the fold_divmod doc comment, lines 3210-3215; the reference
compiler is not part of this repository).  While both halves still agree and
the shift is positive, halve the two multiplier bounds. -/
def chooseMultiplierLoop : Nat → Nat → Nat → Nat × Nat
  | _, mhigh, 0 => (mhigh, 0)
  | mlow, mhigh, s + 1 =>
    if mlow / 2 < mhigh / 2 then chooseMultiplierLoop (mlow / 2) (mhigh / 2) s
    else (mhigh, s + 1)

/-- Modelled from the spec: choose_multiplier for a word size of 32 bits and
precision 31 (signed division).  Returns the multiplier and the post shift
the reference compiler uses for division by d. -/
def chooseMultiplier (d : Nat) : Nat × Nat :=
  let lgup := ceilLog2 d
  chooseMultiplierLoop (2 ^ (32 + lgup) / d) ((2 ^ (32 + lgup) + 2 ^ (lgup + 1)) / d) lgup

/-- True if n is a power of two. -/
def isPowerOfTwo (n : Nat) : Bool :=
  (List.range 34).any (fun k => n == 2 ^ k)

/-- Modelled from the spec: the instruction sequence a reference compiler
emits for the signed division x / d by a non-power-of-two constant
(multiply-high, an add-back when the multiplier does not fit in a signed
32-bit word, a post shift when it is nonzero, and the sign correction
subtracting x >> 31), translated instruction by instruction the way the
translator builds it: every constructed BinaryOp is passed through
fold_divmod, as the per-mnemonic handler tables do (spec section 4.7;
the tables live in the architecture modules, outside src/, and
handle_sra at translate.py lines 3129-3131 shows the pattern).  Nodes built
by the compiler sequence carry uids 1 to 5; fold_divmod results carry
uid 0. -/
def divSequence (x : Expr) (d : Nat) : Expr :=
  let ms := chooseMultiplier d
  let m : Int := Int.ofNat ms.1
  let s : Int := Int.ofNat ms.2
  -- mult / mfhi: hi := MULT_HI(x, m)
  let hi := fold_divmod (.BinOp 1 "MULT_HI" x (.Lit m))
  -- addu (multiplier at least 2^31): hi := hi + x
  let hi := if 2 ^ 31 ≤ m then fold_divmod (.BinOp 2 "+" hi x) else hi
  -- sra by the post shift (emitted only when the shift is nonzero)
  let q := if 0 < s then fold_divmod (.BinOp 3 ">>" hi (.Lit s)) else hi
  -- sra x, 31, then subu: q - (x >> 31)
  fold_divmod (.BinOp 4 "-" q (.BinOp 5 ">>" x (.Lit 31)))

set_option maxRecDepth 100000 in
set_option maxHeartbeats 4000000 in
/-- Claim C7: for every constant divisor d in 3..1000 that is not a power of
two, the multiply-high plus shift sequence the reference compiler emits for
x / d (with its add-back and sign-correction error terms), built and
opportunistically folded instruction by instruction, folds back to exactly
the single division x / d: fold_divmod reconstructs the divisor as
round_div(2^(32+s), m) and the tolerance check accepts exactly d (in
particular it rejects every premature fold of the bare multiply-high node
when a shift or add-back is still to come), and round_div never folds when
the multiplier is at most 1. -/
theorem C7_divmod_roundtrip :
    (∀ d : Nat, d < 1001 → 3 ≤ d → isPowerOfTwo d = false →
      divSequence (.PassedIn 0) d = .BinOp 0 "/" (.PassedIn 0) (.Lit (Int.ofNat d))) ∧
    (∀ x : Int, round_div x 0 = none ∧ round_div x 1 = none) := by
  constructor
  · decide
  · intro x
    constructor <;> simp [round_div]

/-- Witness for C7_divmod_roundtrip at the concrete divisor 7. -/
theorem C7_divmod_roundtrip_witness :
    divSequence (.PassedIn 0) 7 = .BinOp 0 "/" (.PassedIn 0) (.Lit 7) :=
  C7_divmod_roundtrip.1 7 (by decide) (by decide) (by decide)

end M2C

namespace M2C

/-! ## Decimal rendering of naturals

Embedding of Python str() on a nonnegative int, used by the f-strings in
register error messages and in StackInfo.temp_var.  Defined by an explicit
fuel recursion (the fuel n itself bounds the number of digits). -/

/-- The decimal digit characters. -/
def digitChar (d : Nat) : Char :=
  match d with
  | 0 => '0' | 1 => '1' | 2 => '2' | 3 => '3' | 4 => '4'
  | 5 => '5' | 6 => '6' | 7 => '7' | 8 => '8' | _ => '9'

/-- Little-endian decimal digits of n, with fuel. -/
def natDigitsAux : Nat → Nat → List Nat
  | 0, _ => []
  | fuel + 1, n => if n = 0 then [] else n % 10 :: natDigitsAux fuel (n / 10)

/-- Python str() of a natural number. -/
def natStr (n : Nat) : String :=
  if n = 0 then "0"
  else String.mk (((natDigitsAux n n).map digitChar).reverse)

end M2C

namespace M2C

/-! ## Symbolic register state (translate.py lines 2107-2198, 4270-4303)

RegInfo maps architecture registers to a live expression snapshot plus
RegMeta flags.  The register map (a Python dict) is an association list;
`active_instr` scopes each instruction evaluation.  Python exceptions
(DecompFailure, AssertionError) become an error value. -/

/-- An architecture register, identified by name. -/
structure Register where
  register_name : String
  deriving DecidableEq, Repr

/-- The fields of an Instruction that RegInfo reads: declared inputs,
outputs, clobbers, and the source line number (meta.lineno).  Instruction
decoding itself is an external collaborator. -/
structure Instruction where
  inputs : List Register
  outputs : List Register
  clobbers : List Register := []
  lineno : Nat := 0
  deriving DecidableEq, Repr

/-- RegMeta (lines 2068-2104). -/
structure RegMeta where
  inherited : Bool := false
  initial : Bool := false
  is_read : Bool := false
  function_return : Bool := false
  uninteresting : Bool := false
  force : Bool := false
  in_pattern : Bool := false
  deriving DecidableEq, Repr

/-- RegData (lines 2110-2113). -/
structure RegData where
  value : Expr
  meta : RegMeta
  deriving DecidableEq, Repr

/-- Python exceptions raised by the embedded code. -/
inductive PyError where
  | DecompFailure (msg : String)
  | AssertionError
  deriving DecidableEq, Repr

/-- Association-list update (Python dict assignment). -/
def alistSet (m : List (Register × RegData)) (k : Register) (v : RegData) :
    List (Register × RegData) :=
  match m with
  | [] => [(k, v)]
  | (k0, v0) :: rest =>
    if k0 = k then (k, v) :: rest else (k0, v0) :: alistSet rest k v

/-- Association-list lookup (Python dict .get). -/
def alistGet (m : List (Register × RegData)) (k : Register) : Option RegData :=
  match m with
  | [] => none
  | (k0, v0) :: rest => if k0 = k then some v0 else alistGet rest k

/-- RegInfo (lines 2116-2121).  `stack_info` is carried by the Python object
for argument discovery only, which is outside the register map semantics
modelled here. -/
structure RegInfo where
  contents : List (Register × RegData) := []
  read_inherited : List Register := []
  active_instr : Option Instruction := none
  deriving DecidableEq, Repr

/-- RegInfo.get_instruction_lineno (lines 2188-2191). -/
def RegInfo.get_instruction_lineno (ri : RegInfo) : Nat :=
  match ri.active_instr with
  | none => 0
  | some instr => instr.lineno

/-- The in-place flag mutation performed by EvalOnceExpr.force() on a
snapshot node (lines 1749-1761): when not already forced and not trivial,
set forced_emit and the var emission flag.  force() additionally forwards
two use() calls, whose effect on the per-object usage counters is the
subject of the EvalOnceExpr state-machine section; usage counters are not
fields of a snapshot node, and no claim below depends on them. -/
def Expr.force_flags : Expr → Expr
  | .EvalOnce uid w tr tp eeo forced ve =>
    if !forced && !tr then .EvalOnce uid w tr tp eeo true true
    else .EvalOnce uid w tr tp eeo forced ve
  | e => e

/-- RegInfo.__getitem__ (lines 2123-2151), returning the read expression and
the updated state.  The PassedInArg block (lines 2142-2147) mutates only
StackInfo argument discovery and type unification (external collaborators)
and returns nothing, so it leaves no trace here; the trivial unwrap and the
force branch are embedded as in the source.  The assert at line 2149 means a
read can raise AssertionError when meta.force is set on a non-EvalOnceExpr
value. -/
def RegInfo.getitem (ri : RegInfo) (key : Register) :
    Except PyError (Expr × RegInfo) :=
  -- lines 2124-2126: reads during an instruction are restricted to its
  -- declared inputs; violations produce an ErrorExpr value, not an exception
  if (match ri.active_instr with
      | some instr => !(instr.inputs.contains key)
      | none => false) then
    .ok (.ErrorE 0 (some ("Read from unset register " ++ key.register_name ++
      " on line " ++ natStr ri.get_instruction_lineno)), ri)
  -- lines 2127-2128: the hardwired zero register reads as the literal 0
  else if key = Register.mk "zero" then
    .ok (.Lit 0, ri)
  else
    match alistGet ri.contents key with
    | none =>
      .ok (.ErrorE 0 (some ("Read from unset register " ++ key.register_name)), ri)
    | some data =>
      let meta := { data.meta with is_read := true }
      let ri1 : RegInfo :=
        { ri with
          contents := alistSet ri.contents key { data with meta := meta },
          read_inherited :=
            if meta.inherited ∧ ¬ ri.read_inherited.contains key then
              ri.read_inherited ++ [key]
            else ri.read_inherited }
      let ret := data.value
      -- lines 2137-2141: unwrap trivial wrappers eagerly
      match ret with
      | .EvalOnce _ w true _ _ _ _ => .ok (w, ri1)
      | _ =>
        if meta.force then
          match ret with
          | .EvalOnce _ _ _ _ _ _ _ =>
            let forced := ret.force_flags
            .ok (forced,
              { ri1 with contents := alistSet ri1.contents key { value := forced, meta := meta } })
          | _ => .error .AssertionError
        else
          .ok (ret, ri1)

/-- RegInfo.set_with_meta (lines 2156-2162): assign a value to a register
from inside an instruction context. -/
def RegInfo.set_with_meta (ri : RegInfo) (key : Register) (value : Expr)
    (meta : RegMeta) : Except PyError RegInfo :=
  match ri.active_instr with
  | none => .error .AssertionError
  | some instr =>
    if ¬ instr.outputs.contains key then
      .error (.DecompFailure ("Undeclared write to " ++ key.register_name))
    else if key = Register.mk "zero" then
      .error .AssertionError
    else
      .ok { ri with contents := alistSet ri.contents key { value := value, meta := meta } }

/-- RegInfo.global_set_with_meta (lines 2164-2170): assign a value to a
register from outside an instruction context. -/
def RegInfo.global_set_with_meta (ri : RegInfo) (key : Register) (value : Expr)
    (meta : RegMeta) : Except PyError RegInfo :=
  match ri.active_instr with
  | some _ => .error .AssertionError
  | none =>
    if key = Register.mk "zero" then
      .error .AssertionError
    else
      .ok { ri with contents := alistSet ri.contents key { value := value, meta := meta } }

/-- The register-map effect of NodeState.set_reg_real (lines 4270-4303):
after wrapping the value through _eval_once (which touches statements and
variable pools, not the register map), a write to the zero register emits
the wrapped expression as an ExprStmt and leaves the register map untouched
(it is probably a volatile load); any other register goes through
set_with_meta.  Returns the updated map and the list of expressions emitted
as statements. -/
def set_reg_real_binding (ri : RegInfo) (reg : Register) (expr : Expr)
    (meta : RegMeta) : Except PyError (RegInfo × List Expr) :=
  match ri.active_instr with
  | none => .error .AssertionError
  | some _ =>
    if reg = Register.mk "zero" then
      .ok (ri, [expr])
    else
      (ri.set_with_meta reg expr meta).map (fun ri2 => (ri2, []))

end M2C

namespace M2C

/-- Lookup after an update at a different key is unchanged. -/
theorem alistGet_alistSet_ne (m : List (Register × RegData)) (k k2 : Register)
    (v : RegData) (h : k ≠ k2) : alistGet (alistSet m k v) k2 = alistGet m k2 := by
  induction m with
  | nil => simp [alistSet, alistGet, h]
  | cons hd tl ih =>
    obtain ⟨k0, v0⟩ := hd
    by_cases h0 : k0 = k
    · subst h0
      simp [alistSet, alistGet, h]
    · simp [alistSet, alistGet, h0, ih]

/-- A concrete instruction evaluation scope: an instruction on line 7 that
declares no inputs and one output v0. -/
def demoInstr : Instruction :=
  { inputs := [], outputs := [Register.mk "v0"], lineno := 7 }

/-- A register state inside the evaluation of demoInstr. -/
def demoRegs : RegInfo := { active_instr := some demoInstr }

/-- Claim C3, counterexample: the claim states that while an instruction is
being evaluated, reading a register not declared among its inputs is a
fatal error that is raised and not caught.  In the source (lines 2124-2126)
such a read returns an ErrorExpr value and raises nothing: at a concrete
state the read evaluates to a successful result carrying an ErrorExpr. -/
theorem C3_counterexample :
    demoRegs.getitem (Register.mk "a0") =
      .ok (.ErrorE 0 (some "Read from unset register a0 on line 7"), demoRegs) ∧
    (∀ e : PyError, demoRegs.getitem (Register.mk "a0") ≠ .error e) := by
  have hok : demoRegs.getitem (Register.mk "a0") =
      .ok (.ErrorE 0 (some "Read from unset register a0 on line 7"), demoRegs) := rfl
  exact ⟨hok, fun e h => Except.noConfusion (hok.symm.trans h)⟩

/-- Claim C3, amended: while an instruction is being evaluated, reading a
register not declared among its inputs yields a non-fatal ErrorExpr value
(the soft per-read error of the spec error taxonomy, class b), while
writing a register not declared among its outputs raises a fatal
DecompFailure (class c; it is caught at node granularity by translate_block
unless stop-on-error mode is active). -/
theorem C3_undeclared_access (ri : RegInfo) (instr : Instruction)
    (key : Register) (v : Expr) (m : RegMeta)
    (ha : ri.active_instr = some instr) :
    (instr.inputs.contains key = false →
      ri.getitem key =
        .ok (.ErrorE 0 (some ("Read from unset register " ++ key.register_name ++
          " on line " ++ natStr instr.lineno)), ri)) ∧
    (instr.outputs.contains key = false →
      ri.set_with_meta key v m =
        .error (.DecompFailure ("Undeclared write to " ++ key.register_name))) := by
  constructor
  · intro h
    simp only [RegInfo.getitem, ha, h, Bool.not_false, if_true]
    simp [RegInfo.get_instruction_lineno, ha]
  · intro h
    simp only [RegInfo.set_with_meta, ha, h, Bool.false_eq_true, not_false_eq_true,
      if_true, Bool.not_false]

/-- Witness for C3_undeclared_access at a concrete state. -/
theorem C3_undeclared_access_witness :
    demoRegs.getitem (Register.mk "t0") =
      .ok (.ErrorE 0 (some "Read from unset register t0 on line 7"), demoRegs) ∧
    demoRegs.set_with_meta (Register.mk "t0") (.Lit 1) {} =
      .error (.DecompFailure "Undeclared write to t0") :=
  ⟨(C3_undeclared_access demoRegs demoInstr (Register.mk "t0") (.Lit 1) {} rfl).1 (by decide),
   (C3_undeclared_access demoRegs demoInstr (Register.mk "t0") (.Lit 1) {} rfl).2 (by decide)⟩

/-- Claim C4, counterexample: the claim states that reading the zero
register yields the literal 0 in any instruction context.  The declared-
input check (lines 2124-2126) runs before the zero-register check (lines
2127-2128), so inside an instruction that does not declare the zero
register as an input the read yields an ErrorExpr, not the literal 0. -/
theorem C4_counterexample :
    demoRegs.getitem (Register.mk "zero") =
      .ok (.ErrorE 0 (some "Read from unset register zero on line 7"), demoRegs) ∧
    (Expr.ErrorE 0 (some "Read from unset register zero on line 7") ≠ Expr.Lit 0) := by
  constructor
  · rfl
  · decide

/-- Claim C4, amended: reading the zero register yields the integer literal
0 whenever no instruction is active, or the active instruction declares the
zero register among its inputs (otherwise the declared-input check fires
first and yields an ErrorExpr); every write to the zero register is
rejected (set_with_meta and global_set_with_meta raise, set_reg_real
diverts the value into a statement), and consequently the zero register is
never bound in the register map. -/
theorem C4_zero_register :
    (∀ ri : RegInfo,
      (ri.active_instr = none ∨
        ∃ instr, ri.active_instr = some instr ∧
          instr.inputs.contains (Register.mk "zero") = true) →
      ri.getitem (Register.mk "zero") = .ok (.Lit 0, ri)) ∧
    (∀ (ri : RegInfo) (v : Expr) (m : RegMeta),
      ∃ e, ri.set_with_meta (Register.mk "zero") v m = .error e) ∧
    (∀ (ri : RegInfo) (v : Expr) (m : RegMeta),
      ∃ e, ri.global_set_with_meta (Register.mk "zero") v m = .error e) ∧
    (∀ (ri : RegInfo) (k : Register) (v : Expr) (m : RegMeta) (ri2 : RegInfo),
      ri.set_with_meta k v m = .ok ri2 →
      alistGet ri.contents (Register.mk "zero") = none →
      alistGet ri2.contents (Register.mk "zero") = none) ∧
    (∀ (ri : RegInfo) (k : Register) (v : Expr) (m : RegMeta) (ri2 : RegInfo),
      ri.global_set_with_meta k v m = .ok ri2 →
      alistGet ri.contents (Register.mk "zero") = none →
      alistGet ri2.contents (Register.mk "zero") = none) ∧
    (∀ (ri : RegInfo) (k : Register) (v : Expr) (m : RegMeta) (ri2 : RegInfo)
      (out : List Expr),
      set_reg_real_binding ri k v m = .ok (ri2, out) →
      alistGet ri.contents (Register.mk "zero") = none →
      alistGet ri2.contents (Register.mk "zero") = none) := by
  have hset : ∀ (ri : RegInfo) (k : Register) (v : Expr) (m : RegMeta) (ri2 : RegInfo),
      ri.set_with_meta k v m = .ok ri2 →
      alistGet ri.contents (Register.mk "zero") = none →
      alistGet ri2.contents (Register.mk "zero") = none := by
    intro ri k v m ri2 h h0
    unfold RegInfo.set_with_meta at h
    split at h
    · exact absurd h (by simp)
    · split at h
      · exact absurd h (by simp)
      · split at h
        · exact absurd h (by simp)
        · rename_i hz
          injection h with h
          subst h
          simpa [alistGet_alistSet_ne _ _ _ _ hz] using h0
  refine ⟨?_, ?_, ?_, hset, ?_, ?_⟩
  · intro ri h
    rcases h with h | ⟨instr, ha, hc⟩
    · simp [RegInfo.getitem, h]
    · have hc2 : Register.mk "zero" ∈ instr.inputs := by simpa using hc
      simp [RegInfo.getitem, ha, hc2]
  · intro ri v m
    rcases ha : ri.active_instr with _ | instr
    · exact ⟨.AssertionError, by simp [RegInfo.set_with_meta, ha]⟩
    · by_cases hc : instr.outputs.contains (Register.mk "zero") = true
      · have hc2 : Register.mk "zero" ∈ instr.outputs := by simpa using hc
        exact ⟨.AssertionError, by simp [RegInfo.set_with_meta, ha, hc2]⟩
      · have hc2 : Register.mk "zero" ∉ instr.outputs := by simpa using hc
        exact ⟨.DecompFailure ("Undeclared write to " ++ (Register.mk "zero").register_name),
          by simp [RegInfo.set_with_meta, ha, hc2]⟩
  · intro ri v m
    rcases ha : ri.active_instr with _ | instr
    · exact ⟨.AssertionError, by simp [RegInfo.global_set_with_meta, ha]⟩
    · exact ⟨.AssertionError, by simp [RegInfo.global_set_with_meta, ha]⟩
  · intro ri k v m ri2 h h0
    unfold RegInfo.global_set_with_meta at h
    split at h
    · exact absurd h (by simp)
    · split at h
      · exact absurd h (by simp)
      · rename_i hz
        injection h with h
        subst h
        simpa [alistGet_alistSet_ne _ _ _ _ hz] using h0
  · intro ri k v m ri2 out h h0
    unfold set_reg_real_binding at h
    split at h
    · exact absurd h (by simp)
    · split at h
      · injection h with h
        have h1 : ri = ri2 := congrArg Prod.fst h
        rw [← h1]
        exact h0
      · rename_i hz
        cases hs : ri.set_with_meta k v m with
        | error e =>
          rw [hs] at h
          exact absurd h (by simp [Except.map])
        | ok ri3 =>
          rw [hs] at h
          simp only [Except.map] at h
          injection h with h
          have h1 : ri3 = ri2 := congrArg Prod.fst h
          rw [← h1]
          exact hset ri k v m ri3 hs h0

/-- Witness for C4_zero_register at concrete states. -/
theorem C4_zero_register_witness :
    RegInfo.getitem {} (Register.mk "zero") = .ok (.Lit 0, {}) ∧
    (∃ e, RegInfo.set_with_meta demoRegs (Register.mk "zero") (.Lit 1) {} = .error e) :=
  ⟨C4_zero_register.1 {} (Or.inl rfl),
   C4_zero_register.2.1 demoRegs (.Lit 1) {}⟩

end M2C

namespace M2C

/-! ## Stack region classification (translate.py lines 234-290, 392-443)

The fields of StackInfo read by the region predicates, and the
classification chain of get_stack_var. -/

/-- Target.ArchEnum, as queried through global_info.arch.arch. -/
inductive ArchEnum where
  | MIPS
  | PPC
  deriving DecidableEq, Repr

/-- The StackInfo fields consulted by the region predicates. -/
structure StackInfo where
  arch : ArchEnum
  allocated_stack_size : Int := 0
  is_leaf : Bool := true
  subroutine_arg_top : Int := 0
  callee_save_reg_region : Int × Int := (0, 0)
  deriving DecidableEq, Repr

/-- StackInfo.in_subroutine_arg_region (lines 270-275). -/
def StackInfo.in_subroutine_arg_region (si : StackInfo) (location : Int) : Bool :=
  if si.arch = .PPC then false
  else if si.is_leaf then false
  else decide (location < si.subroutine_arg_top)

/-- StackInfo.in_callee_save_reg_region (lines 277-287), including the PPC
special case: PPC saves LR in the header of the previous stack frame. -/
def StackInfo.in_callee_save_reg_region (si : StackInfo) (location : Int) : Bool :=
  let lower_bound := si.callee_save_reg_region.1
  let upper_bound := si.callee_save_reg_region.2
  if lower_bound ≤ location ∧ location < upper_bound then true
  else if si.arch = .PPC ∧ location = si.allocated_stack_size + 4 then true
  else false

/-- StackInfo.location_above_stack (lines 289-290). -/
def StackInfo.location_above_stack (si : StackInfo) (location : Int) : Bool :=
  decide (si.allocated_stack_size ≤ location)

/-- The four classes a byte offset can fall into. -/
inductive StackVarClass where
  | calleeSave
  | aboveStack
  | subroutineArg
  | localVar
  deriving DecidableEq, Repr

/-- The classification chain of StackInfo.get_stack_var (lines 392-443):
an if/elif chain trying callee-saved, above-stack (caller argument),
subroutine argument, and finally local variable. -/
def StackInfo.stack_var_class (si : StackInfo) (location : Int) : StackVarClass :=
  if si.in_callee_save_reg_region location then .calleeSave
  else if si.location_above_stack location then .aboveStack
  else if si.in_subroutine_arg_region location then .subroutineArg
  else .localVar

/-- A PPC stack frame: 0x20 bytes allocated, callee-saved region [8, 16). -/
def ppcStackInfo : StackInfo :=
  { arch := .PPC, allocated_stack_size := 32, is_leaf := false,
    subroutine_arg_top := 8, callee_save_reg_region := (8, 16) }

/-- Claim C5, counterexample: the claim states that the three predicates
together with the residual local case are pairwise disjoint over
[0, allocated_stack_size + caller area).  On PPC the link-register save
slot at allocated_stack_size + 4 (lines 281-286) satisfies both
in_callee_save_reg_region and location_above_stack, so the predicates
overlap inside the range (with a caller area of at least 8 bytes). -/
theorem C5_counterexample :
    ppcStackInfo.in_callee_save_reg_region 36 = true ∧
    ppcStackInfo.location_above_stack 36 = true ∧
    (0 ≤ (36 : Int) ∧ (36 : Int) < ppcStackInfo.allocated_stack_size + 8) := by
  decide

/-- Membership characterization of in_callee_save_reg_region. -/
theorem in_callee_save_iff (si : StackInfo) (loc : Int) :
    si.in_callee_save_reg_region loc = true ↔
      (si.callee_save_reg_region.1 ≤ loc ∧ loc < si.callee_save_reg_region.2) ∨
      (si.arch = .PPC ∧ loc = si.allocated_stack_size + 4) := by
  unfold StackInfo.in_callee_save_reg_region
  split_ifs with h1 h2 <;> simp_all

/-- Membership characterization of in_subroutine_arg_region. -/
theorem in_subroutine_arg_iff (si : StackInfo) (loc : Int) :
    si.in_subroutine_arg_region loc = true ↔
      (si.arch ≠ .PPC ∧ si.is_leaf = false ∧ loc < si.subroutine_arg_top) := by
  unfold StackInfo.in_subroutine_arg_region
  split_ifs with h1 h2 <;> simp_all

/-- Claim C5, amended: the classification chain of get_stack_var assigns
exactly one of the four classes to every offset, resolving the predicates
in priority order (callee-saved, then above-stack, then subroutine
argument, then local), and the predicates are exhaustive; but the raw
predicates themselves are not pairwise disjoint in general: on PPC the
link-register slot at allocated_stack_size + 4 is both callee-saved and
above-stack (the chain classifies it as callee-saved).  On non-PPC targets
they are pairwise disjoint whenever the callee-saved region lies below the
allocated size and the subroutine-argument boundary lies below the
callee-saved region and the allocated size, as get_stack_info arranges
(lines 618, 670). -/
theorem C5_stack_classification :
    (∀ (si : StackInfo) (loc : Int),
      (si.stack_var_class loc = .calleeSave ↔
        si.in_callee_save_reg_region loc = true) ∧
      (si.stack_var_class loc = .aboveStack ↔
        (si.in_callee_save_reg_region loc = false ∧
         si.location_above_stack loc = true)) ∧
      (si.stack_var_class loc = .subroutineArg ↔
        (si.in_callee_save_reg_region loc = false ∧
         si.location_above_stack loc = false ∧
         si.in_subroutine_arg_region loc = true)) ∧
      (si.stack_var_class loc = .localVar ↔
        (si.in_callee_save_reg_region loc = false ∧
         si.location_above_stack loc = false ∧
         si.in_subroutine_arg_region loc = false))) ∧
    (∀ (si : StackInfo) (loc : Int), si.arch ≠ .PPC →
      si.callee_save_reg_region.2 ≤ si.allocated_stack_size →
      si.subroutine_arg_top ≤ si.callee_save_reg_region.1 →
      si.subroutine_arg_top ≤ si.allocated_stack_size →
      ¬(si.in_callee_save_reg_region loc = true ∧ si.location_above_stack loc = true) ∧
      ¬(si.in_callee_save_reg_region loc = true ∧ si.in_subroutine_arg_region loc = true) ∧
      ¬(si.location_above_stack loc = true ∧ si.in_subroutine_arg_region loc = true)) := by
  constructor
  · intro si loc
    unfold StackInfo.stack_var_class
    split_ifs with h1 h2 h3 <;> simp_all
  · intro si loc hppc hb1 hb2 hb3
    refine ⟨?_, ?_, ?_⟩
    · rintro ⟨hc, ha⟩
      rw [in_callee_save_iff] at hc
      rcases hc with ⟨hlo, hhi⟩ | ⟨hp, _⟩
      · have := of_decide_eq_true ha
        omega
      · exact hppc hp
    · rintro ⟨hc, hs⟩
      rw [in_callee_save_iff] at hc
      rw [in_subroutine_arg_iff] at hs
      rcases hc with ⟨hlo, hhi⟩ | ⟨hp, _⟩
      · omega
      · exact hppc hp
    · rintro ⟨ha, hs⟩
      rw [in_subroutine_arg_iff] at hs
      have := of_decide_eq_true ha
      omega

/-- Witness for C5_stack_classification at a concrete non-PPC frame. -/
theorem C5_stack_classification_witness :
    let si : StackInfo :=
      { arch := .MIPS, allocated_stack_size := 64, is_leaf := false,
        subroutine_arg_top := 16, callee_save_reg_region := (24, 40) }
    ¬(si.in_callee_save_reg_region 30 = true ∧ si.location_above_stack 30 = true) :=
  ((C5_stack_classification.2
    { arch := .MIPS, allocated_stack_size := 64, is_leaf := false,
      subroutine_arg_top := 16, callee_save_reg_region := (24, 40) }
    30 (by decide) (by decide) (by decide) (by decide)).1)

end M2C

namespace M2C

/-! ## Callee-saved region bounds (translate.py lines 642-666) -/

/-- The scan loop of get_stack_info over the sorted callee-saved offsets
(lines 653-665): starting with top equal to the lowest offset, each offset
must either continue the region (equal top) or, at most once, skip a single
4-byte padding word (equal top + 4); anything else raises DecompFailure.
Returns the final top (one past the highest offset). -/
def calleeSaveRegionLoop (top : Int) (internal_padding_added : Bool) :
    List Int → Except String Int
  | [] => .ok top
  | offset :: rest =>
    if offset ≠ top then
      if ¬internal_padding_added ∧ offset = top + 4 then
        calleeSaveRegionLoop (offset + 4) true rest
      else
        .error "Gap in callee-saved word stack region"
    else
      calleeSaveRegionLoop (offset + 4) internal_padding_added rest

/-- Lines 643-666: for a nonempty (sorted) offset list, the region bounds
are (bottom, final top); an empty list leaves the default (0, 0). -/
def callee_save_reg_region_bounds (callee_saved_offsets : List Int) :
    Except String (Int × Int) :=
  match callee_saved_offsets with
  | [] => .ok (0, 0)
  | bottom :: rest =>
    (calleeSaveRegionLoop bottom false (bottom :: rest)).map fun top => (bottom, top)

/-- Consecutive differences of a list. -/
def diffs : List Int → List Int
  | [] => []
  | [_] => []
  | a :: b :: rest => (b - a) :: diffs (b :: rest)

/-- The gap condition of claim C6: all consecutive differences are 4 bytes
(no gap) or 8 bytes (one skipped 4-byte padding word), with at most one
8-byte step. -/
def atMostOnePaddingGap (l : List Int) : Bool :=
  (diffs l).all (fun d => d == 4 || d == 8) && (diffs l).count 8 ≤ 1

/-- Declarative success condition for the loop: walking the offsets, each
step is +4, or (while the budget lasts) +8. -/
def gapsOK : List Int → Nat → Bool
  | [], _ => true
  | [_], _ => true
  | a :: b :: rest, budget =>
    (b == a + 4 && gapsOK (b :: rest) budget) ||
    (b == a + 8 && budget != 0 && gapsOK (b :: rest) (budget - 1))

/-- The remaining padding budget: one 4-byte gap while padding has not been
inserted, none afterwards. -/
def budgetOf : Bool → Nat
  | true => 0
  | false => 1

/-- Loop characterization: running the loop over l with top = prev + 4 and a
padding budget of one (or zero if padding was already inserted) succeeds
exactly when the gap condition holds along prev :: l, and then returns the
last offset plus 4. -/
theorem calleeSaveRegionLoop_spec (l : List Int) :
    ∀ (prev : Int) (pad : Bool),
      calleeSaveRegionLoop (prev + 4) pad l =
        if gapsOK (prev :: l) (budgetOf pad) then
          .ok ((prev :: l).getLast (by simp) + 4)
        else
          .error "Gap in callee-saved word stack region" := by
  induction l with
  | nil =>
    intro prev pad
    simp [calleeSaveRegionLoop, gapsOK]
  | cons o rest ih =>
    intro prev pad
    rw [calleeSaveRegionLoop]
    have hlast : (prev :: o :: rest).getLast (by simp) = (o :: rest).getLast (by simp) :=
      List.getLast_cons (by simp)
    by_cases h4 : o = prev + 4
    · rw [if_neg (by simp [h4]), ih o pad]
      have hb4 : ((o : Int) == prev + 4) = true := by simp [h4]
      have hb8 : ((o : Int) == prev + 8) = false := by
        simp only [beq_eq_false_iff_ne, ne_eq]
        omega
      have hg : gapsOK (prev :: o :: rest) (budgetOf pad) =
          gapsOK (o :: rest) (budgetOf pad) := by
        simp [gapsOK, hb4, hb8]
      rw [hg, hlast]
    · rw [if_pos (by simp [h4])]
      have hb4 : ((o : Int) == prev + 4) = false := by
        simp only [beq_eq_false_iff_ne, ne_eq]
        omega
      by_cases h8 : ¬(pad = true) ∧ o = (prev + 4) + 4
      · rw [if_pos h8, ih o true]
        obtain ⟨hpad, h8v⟩ := h8
        have hpadf : pad = false := by
          cases pad
          · rfl
          · exact absurd rfl hpad
        subst hpadf
        have hb8 : ((o : Int) == prev + 8) = true := by
          simp only [beq_iff_eq]
          omega
        have hg : gapsOK (prev :: o :: rest) (budgetOf false) =
            gapsOK (o :: rest) (budgetOf true) := by
          simp [gapsOK, hb4, hb8, budgetOf]
        rw [hg, hlast]
      · rw [if_neg h8]
        have hg : gapsOK (prev :: o :: rest) (budgetOf pad) = false := by
          cases hdiff : ((o : Int) == prev + 8) with
          | false => simp [gapsOK, hb4, hdiff]
          | true =>
            have ho8 : o = prev + 8 := by simpa [beq_iff_eq] using hdiff
            have hpadt : pad = true := by
              by_contra hp
              exact h8 ⟨hp, by omega⟩
            subst hpadt
            simp [gapsOK, hb4, budgetOf]
        rw [hg]
        simp

/-- The gap condition along a chain equals the claim form: all consecutive
differences are 4 or 8, with the number of 8-steps within budget. -/
theorem gapsOK_iff_diffs (l : List Int) :
    ∀ budget : Nat,
      gapsOK l budget =
        ((diffs l).all (fun d => d == 4 || d == 8) &&
          (diffs l).count 8 ≤ budget) := by
  induction l with
  | nil => intro budget; simp [gapsOK, diffs]
  | cons a tl ih =>
    intro budget
    match tl with
    | [] => simp [gapsOK, diffs]
    | b :: rest =>
      have hd : diffs (a :: b :: rest) = (b - a) :: diffs (b :: rest) := rfl
      by_cases h4 : b = a + 4
      · have hb4 : ((b : Int) == a + 4) = true := by simp [h4]
        have hd4 : ((b - a : Int) == 4) = true := by
          simp only [beq_iff_eq]
          omega
        have hd8 : ((b - a : Int) == 8) = false := by
          simp only [beq_eq_false_iff_ne, ne_eq]
          omega
        have hb8 : ((b : Int) == a + 8) = false := by
          simp only [beq_eq_false_iff_ne, ne_eq]
          omega
        simp [gapsOK, hb4, hb8, hd, hd4, hd8, List.count_cons, ih budget]
      · by_cases h8 : b = a + 8
        · have hb4 : ((b : Int) == a + 4) = false := by
            simp only [beq_eq_false_iff_ne, ne_eq]
            omega
          have hb8 : ((b : Int) == a + 8) = true := by simp [h8]
          have hd4 : ((b - a : Int) == 4) = false := by
            simp only [beq_eq_false_iff_ne, ne_eq]
            omega
          have hd8 : ((b - a : Int) == 8) = true := by
            simp only [beq_iff_eq]
            omega
          match budget with
          | 0 =>
            simp only [gapsOK, hb4, hb8, hd, List.all_cons, hd4, hd8, List.count_cons]
            simp
          | budget + 1 =>
            simp [gapsOK, hb4, hb8, hd, hd4, hd8, List.count_cons, ih budget,
              Nat.succ_le_succ_iff]
        · have hb4 : ((b : Int) == a + 4) = false := by
            simp only [beq_eq_false_iff_ne, ne_eq]
            omega
          have hb8 : ((b : Int) == a + 8) = false := by
            simp only [beq_eq_false_iff_ne, ne_eq]
            omega
          have hd4 : ((b - a : Int) == 4) = false := by
            simp only [beq_eq_false_iff_ne, ne_eq]
            omega
          have hd8 : ((b - a : Int) == 8) = false := by
            simp only [beq_eq_false_iff_ne, ne_eq]
            omega
          simp [gapsOK, hb4, hb8, hd, hd4, hd8]

/-- Claim C6: given the sorted nonempty list of callee-saved save offsets,
the analyzer computes the region bounds as [lowest offset, highest offset
+ 4) while tolerating at most one internal 4-byte padding gap (one 8-byte
step between consecutive saved offsets); a second such gap, or any step
other than exactly 4 or 8 bytes (larger gaps, or duplicate offsets), raises
the fatal DecompFailure "Gap in callee-saved word stack region".  For the
sorted input list, the head is the lowest offset and the last element the
highest. -/
theorem C6_callee_save_region (bottom : Int) (rest : List Int) :
    (atMostOnePaddingGap (bottom :: rest) = true →
      callee_save_reg_region_bounds (bottom :: rest) =
        .ok (bottom, (bottom :: rest).getLast (by simp) + 4)) ∧
    (atMostOnePaddingGap (bottom :: rest) = false →
      callee_save_reg_region_bounds (bottom :: rest) =
        .error "Gap in callee-saved word stack region") := by
  have hfirst : callee_save_reg_region_bounds (bottom :: rest) =
      (calleeSaveRegionLoop (bottom + 4) false rest).map fun top => (bottom, top) := by
    rw [callee_save_reg_region_bounds, calleeSaveRegionLoop]
    simp
  have hspec := calleeSaveRegionLoop_spec rest bottom false
  have hbridge := gapsOK_iff_diffs (bottom :: rest) (budgetOf false)
  constructor
  · intro h
    rw [hfirst, hspec, if_pos ?_]
    · simp [Except.map]
    · rw [hbridge]
      simpa [atMostOnePaddingGap] using h
  · intro h
    rw [hfirst, hspec, if_neg ?_]
    · simp [Except.map]
    · intro hc
      rw [hbridge] at hc
      simp only [atMostOnePaddingGap] at h
      exact Bool.noConfusion (h.symm.trans hc)

/-- Witness for C6_callee_save_region: offsets 24, 28, 36, 40 (one 4-byte
padding gap between 28 and 36) give the region [24, 44); offsets 24, 36
(an 8-byte gap) are fatal. -/
theorem C6_callee_save_region_witness :
    callee_save_reg_region_bounds [24, 28, 36, 40] = .ok (24, 44) ∧
    callee_save_reg_region_bounds [24, 36] =
      .error "Gap in callee-saved word stack region" :=
  ⟨by
    have := (C6_callee_save_region 24 [28, 36, 40]).1 (by decide)
    simpa using this,
   by
    have := (C6_callee_save_region 24 [36]).2 (by decide)
    simpa using this⟩

end M2C

namespace M2C

/-! ## Variable naming (translate.py lines 265-268, 725-742)

StackInfo.temp_var assigns names from a per-prefix counter
(temp_name_counter); Var.format asserts emission and assigns the name
lazily on first formatting.  The counter dictionary is an association
list; `pfx` stands for the Python parameter named prefix (a Lean keyword). -/

/-- The temp_name_counter dictionary. -/
def TempCounter := List (String × Nat)

/-- Python dict .get(prefix, 0). -/
def counterGet (c : TempCounter) (p : String) : Nat :=
  match c with
  | [] => 0
  | (k, v) :: rest => if k = p then v else counterGet rest p

/-- Python dict assignment. -/
def counterSet (c : TempCounter) (p : String) (v : Nat) : TempCounter :=
  match c with
  | [] => [(p, v)]
  | (k, v0) :: rest => if k = p then (p, v) :: rest else (k, v0) :: counterSet rest p v

/-- The name produced for the k-th use of a prefix: the bare prefix on
first use, prefix_k afterwards. -/
def tempName (pfx : String) (counter : Nat) : String :=
  pfx ++ (if counter > 1 then "_" ++ natStr counter else "")

/-- StackInfo.temp_var (lines 265-268). -/
def temp_var (c : TempCounter) (pfx : String) : String × TempCounter :=
  let counter := counterGet c pfx + 1
  (tempName pfx counter, counterSet c pfx counter)

/-- Var (lines 725-742): prefix, lazily assigned name, emission flag.
The type field is external. -/
structure Var where
  pfx : String
  is_emitted : Bool := false
  name : Option String := none
  deriving DecidableEq, Repr

/-- Var.format (lines 734-739): assert is_emitted; assign the name from the
per-prefix counter on first formatting; afterwards return the stored name.
Returns the name, the updated Var and the updated counter state. -/
def Var.format (v : Var) (c : TempCounter) :
    Except PyError (String × Var × TempCounter) :=
  if ¬(v.is_emitted = true) then .error .AssertionError
  else
    match v.name with
    | some n => .ok (n, v, c)
    | none =>
      let r := temp_var c v.pfx
      .ok (r.1, { v with name := some r.1 }, r.2)

/-- Three emitted Vars of one function: two share the prefix a, the third
has the prefix a_2. -/
def varA1 : Var := { pfx := "a", is_emitted := true }

/-- Second Var with prefix a. -/
def varA2 : Var := { pfx := "a", is_emitted := true }

/-- A Var with prefix a_2 (prefixes with numeric suffixes arise from
deterministic-variable naming, which appends line numbers or block indices,
and from user-specified register variable names). -/
def varA3 : Var := { pfx := "a_2", is_emitted := true }

/-- Claim C8, counterexample: the claim states that the per-prefix counter
guarantees pairwise-distinct names across all prefixes in use.  Formatting
varA1, varA2 and varA3 in order assigns the names a, a_2 and a_2: the
second use of prefix a collides with the first use of prefix a_2. -/
theorem C8_counterexample :
    varA1.format [] =
      .ok ("a", { pfx := "a", is_emitted := true, name := some "a" }, [("a", 1)]) ∧
    varA2.format [("a", 1)] =
      .ok ("a_2", { pfx := "a", is_emitted := true, name := some "a_2" },
        [("a", 2)]) ∧
    varA3.format [("a", 2)] =
      .ok ("a_2", { pfx := "a_2", is_emitted := true, name := some "a_2" },
        [("a", 2), ("a_2", 1)]) ∧
    varA2 ≠ varA3 := by
  refine ⟨rfl, rfl, rfl, by decide⟩

end M2C

namespace M2C

/-- Digit-list evaluation, the inverse of natDigitsAux. -/
def evalDigits : List Nat → Nat
  | [] => 0
  | d :: rest => d + 10 * evalDigits rest

/-- natDigitsAux round-trips through evalDigits when given enough fuel. -/
theorem natDigitsAux_eval : ∀ (fuel n : Nat), n ≤ fuel →
    evalDigits (natDigitsAux fuel n) = n := by
  intro fuel
  induction fuel with
  | zero =>
    intro n h
    have : n = 0 := by omega
    subst this
    simp [natDigitsAux, evalDigits]
  | succ f ih =>
    intro n h
    rw [natDigitsAux]
    by_cases h0 : n = 0
    · simp [h0, evalDigits]
    · rw [if_neg h0, evalDigits, ih (n / 10) (by omega)]
      omega

/-- All digits produced by natDigitsAux are below 10. -/
theorem natDigitsAux_lt : ∀ (fuel n d : Nat), d ∈ natDigitsAux fuel n → d < 10 := by
  intro fuel
  induction fuel with
  | zero =>
    intro n d h
    simp [natDigitsAux] at h
  | succ f ih =>
    intro n d h
    rw [natDigitsAux] at h
    by_cases h0 : n = 0
    · simp [h0] at h
    · rw [if_neg h0] at h
      rcases List.mem_cons.mp h with h | h
      · subst h
        exact Nat.mod_lt _ (by omega)
      · exact ih _ _ h

/-- digitChar is injective on digits. -/
theorem digitChar_inj : ∀ d1, d1 < 10 → ∀ d2, d2 < 10 →
    digitChar d1 = digitChar d2 → d1 = d2 := by decide

/-- Mapping digitChar over digit lists is injective. -/
theorem map_digitChar_inj : ∀ (l1 l2 : List Nat),
    (∀ d ∈ l1, d < 10) → (∀ d ∈ l2, d < 10) →
    l1.map digitChar = l2.map digitChar → l1 = l2 := by
  intro l1
  induction l1 with
  | nil =>
    intro l2 _ _ h
    cases l2 with
    | nil => rfl
    | cons b t => simp at h
  | cons a t ih =>
    intro l2 h1 h2 h
    cases l2 with
    | nil => simp at h
    | cons b t2 =>
      simp only [List.map_cons, List.cons.injEq] at h
      have ha : a = b :=
        digitChar_inj a (h1 a (by simp)) b (h2 b (by simp)) h.1
      have ht : t = t2 :=
        ih t2 (fun d hd => h1 d (by simp [hd])) (fun d hd => h2 d (by simp [hd])) h.2
      rw [ha, ht]

/-- natStr is injective on nonzero naturals. -/
theorem natStr_inj (k1 k2 : Nat) (h1 : k1 ≠ 0) (h2 : k2 ≠ 0)
    (h : natStr k1 = natStr k2) : k1 = k2 := by
  unfold natStr at h
  rw [if_neg h1, if_neg h2] at h
  have hdata : ((natDigitsAux k1 k1).map digitChar).reverse =
      ((natDigitsAux k2 k2).map digitChar).reverse := congrArg String.data h
  have hmapeq : (natDigitsAux k1 k1).map digitChar =
      (natDigitsAux k2 k2).map digitChar := by
    have := congrArg List.reverse hdata
    simpa using this
  have hdig : natDigitsAux k1 k1 = natDigitsAux k2 k2 :=
    map_digitChar_inj _ _ (fun d hd => natDigitsAux_lt k1 k1 d hd)
      (fun d hd => natDigitsAux_lt k2 k2 d hd) hmapeq
  have he1 := natDigitsAux_eval k1 k1 (le_refl _)
  have he2 := natDigitsAux_eval k2 k2 (le_refl _)
  rw [hdig] at he1
  omega

/-- natStr of a nonzero natural is nonempty. -/
theorem natStr_length_pos (k : Nat) (hk : k ≠ 0) : 0 < (natStr k).length := by
  unfold natStr
  rw [if_neg hk]
  show 0 < (((natDigitsAux k k).map digitChar).reverse).length
  match k, hk with
  | kk + 1, _ =>
    rw [natDigitsAux]
    simp

/-- Names generated from the same prefix at different counters differ. -/
theorem tempName_inj (p : String) (k1 k2 : Nat) (hk1 : 1 ≤ k1) (hlt : k1 < k2) :
    tempName p k1 ≠ tempName p k2 := by
  intro h
  unfold tempName at h
  by_cases h1 : k1 > 1
  · rw [if_pos h1, if_pos (by omega)] at h
    have hdata := congrArg String.data h
    simp only [String.data_append] at hdata
    have htail : ("_" ++ natStr k1).data = ("_" ++ natStr k2).data :=
      List.append_cancel_left hdata
    have htail2 : (natStr k1).data = (natStr k2).data := by
      simpa [String.data_append] using htail
    have : natStr k1 = natStr k2 := by
      have : (natStr k1).data = (natStr k2).data := htail2
      cases hs1 : natStr k1 with
      | mk d1 =>
        cases hs2 : natStr k2 with
        | mk d2 =>
          rw [hs1, hs2] at this
          exact congrArg String.mk this
    have := natStr_inj k1 k2 (by omega) (by omega) this
    omega
  · have hk1e : k1 = 1 := by omega
    subst hk1e
    rw [if_neg (by omega), if_pos (by omega)] at h
    have hlen := congrArg String.length h
    have hap : (p ++ "").length = p.length := by simp
    have hap2 : (p ++ ("_" ++ natStr k2)).length =
        p.length + (1 + (natStr k2).length) := by
      simp [show ("_" : String).length = 1 from rfl]
    have hpos := natStr_length_pos k2 (by omega)
    omega

/-- The counter update is observed by the next read of the same prefix. -/
theorem counterGet_counterSet (c : TempCounter) (p : String) (v : Nat) :
    counterGet (counterSet c p v) p = v := by
  induction c with
  | nil => simp [counterGet, counterSet]
  | cons hd tl ih =>
    obtain ⟨k, v0⟩ := hd
    by_cases hk : k = p
    · simp [counterGet, counterSet, hk]
    · simp [counterGet, counterSet, hk, ih]

/-- Claim C8, amended: a Var output name is assigned lazily and at most
once — formatting an unemitted Var is an assertion error, the first
formatting after emission draws a fresh name from the per-prefix counter,
and every later formatting returns the stored name without touching the
counter.  The per-prefix counter guarantees pairwise-distinct names among
the Vars sharing one prefix (bare prefix, then prefix_2, prefix_3, ...);
distinctness across different prefixes additionally requires that no
prefix equal another prefix extended by its counter suffix, which the
counterexample shows is not guaranteed in general. -/
theorem C8_lazy_naming :
    (∀ (v : Var) (c : TempCounter), v.is_emitted = false →
      v.format c = .error .AssertionError) ∧
    (∀ (v : Var) (c : TempCounter) (n : String) (v2 : Var) (c2 : TempCounter),
      v.format c = .ok (n, v2, c2) →
      v2.name = some n ∧ v2.format c2 = .ok (n, v2, c2)) ∧
    (∀ (p : String) (k1 k2 : Nat), 1 ≤ k1 → k1 < k2 →
      tempName p k1 ≠ tempName p k2) ∧
    (∀ (c : TempCounter) (p : String),
      (temp_var c p).1 = tempName p (counterGet c p + 1) ∧
      counterGet (temp_var c p).2 p = counterGet c p + 1) := by
  refine ⟨?_, ?_, tempName_inj, ?_⟩
  · intro v c h
    simp [Var.format, h]
  · intro v c n v2 c2 h
    unfold Var.format at h
    by_cases he : v.is_emitted = true
    · rw [if_neg (by simp [he])] at h
      cases hn : v.name with
      | some n0 =>
        rw [hn] at h
        injection h with h
        obtain ⟨he1, he2, he3⟩ : n0 = n ∧ v = v2 ∧ c = c2 := by
          refine ⟨congrArg Prod.fst h, ?_, ?_⟩
          · exact congrArg (fun x => x.2.1) h
          · exact congrArg (fun x => x.2.2) h
        subst he1; subst he2; subst he3
        refine ⟨hn, ?_⟩
        simp [Var.format, he, hn]
      | none =>
        rw [hn] at h
        injection h with h
        obtain ⟨he1, he2, he3⟩ :
            (temp_var c v.pfx).1 = n ∧
            ({ v with name := some (temp_var c v.pfx).1 } : Var) = v2 ∧
            (temp_var c v.pfx).2 = c2 := by
          refine ⟨congrArg Prod.fst h, ?_, ?_⟩
          · exact congrArg (fun x => x.2.1) h
          · exact congrArg (fun x => x.2.2) h
        subst he3
        have hv2name : v2.name = some n := by
          rw [← he2, ← he1]
        have hv2emit : v2.is_emitted = true := by
          rw [← he2]
          exact he
        refine ⟨hv2name, ?_⟩
        simp [Var.format, hv2emit, hv2name]
    · rw [if_pos (by simp [he])] at h
      exact absurd h (by simp)
  · intro c p
    constructor
    · rfl
    · exact counterGet_counterSet c p _

/-- Witness for C8_lazy_naming at concrete inputs. -/
theorem C8_lazy_naming_witness :
    Var.format { pfx := "a" } [] = .error .AssertionError ∧
    tempName "temp" 1 ≠ tempName "temp" 2 :=
  ⟨C8_lazy_naming.1 { pfx := "a" } [] rfl,
   C8_lazy_naming.2.2.1 "temp" 1 2 (by decide) (by decide)⟩

end M2C

namespace M2C

/-- Python str() of an integer. -/
def intStr (v : Int) : String :=
  if v < 0 then "-" ++ natStr (-v).toNat else natStr v.toNat

/-- A structural rendering of expression snapshots.  The final pretty
printer is an external collaborator (spec section 1); what the claims need
is the dispatch of EvalOnceExpr.format (lines 1766-1770) — the var name
when uses_var() holds, the wrapped expression otherwise — with the var
name keyed by the var identity, and that structurally distinct leaves
render distinctly. -/
def Expr.fmt : Expr → String
  | .Lit v => intStr v
  | .GSym n => n
  | .LocalV v => "sp" ++ intStr v
  | .PassedIn v => "arg" ++ intStr v
  | .SubArg v => "subroutine_arg" ++ intStr v
  | .StructAcc b o => b.fmt ++ "->" ++ intStr o
  | .AddrOf e => "&" ++ e.fmt
  | .CastE e _ _ _ => e.fmt
  | .CarryB _ => "M2C_CARRY"
  | .SecondHalf _ => "(second half of f64)"
  | .ErrorE _ _ => "M2C_ERROR"
  | .FuncCallE u => "call_" ++ natStr u
  | .UnOp _ op e => op ++ e.fmt
  | .BinOp _ op l r => "(" ++ l.fmt ++ " " ++ op ++ " " ++ r.fmt ++ ")"
  | .EvalOnce u w tr _ _ _ ve => if ve && !tr then "var_" ++ natStr u else w.fmt
  | .NaivePhi u => "phi_" ++ natStr u
  | .PlannedPhi u => "pphi_" ++ natStr u

/-- Wellformedness of snapshot flags, as established by the construction
sites: trivial implies transparent (line 4150, trivial is
transparent && is_trivial_expression); forced_emit implies the var is
emitted (force(), lines 1757-1759, sets both); trivial excludes
forced_emit (the force() guard, line 1757); emit_exactly_once wrappers are
created with transparent=False (the function call site, lines 4454-4460,
the only emit_exactly_once=True site). -/
def Expr.wf : Expr → Bool
  | .EvalOnce _ w tr tp eeo forced ve =>
    (!tr || tp) && (!forced || ve) && (!tr || !forced) && (!eeo || !tp) && w.wf
  | .StructAcc b _ => b.wf
  | .AddrOf e => e.wf
  | .CastE e _ _ _ => e.wf
  | .UnOp _ _ e => e.wf
  | .BinOp _ _ l r => l.wf && r.wf
  | _ => true

/-- Under wellformed flags, transparent unwrapping is a prefix of early
unwrapping: a transparent wrapper that does not use its var is neither
forced nor emit-exactly-once, so early_unwrap unwraps it too. -/
theorem early_unwrap_transparent_unwrap (e : Expr) (hwf : e.wf = true) :
    early_unwrap (transparent_unwrap e) = early_unwrap e := by
  induction e with
  | EvalOnce u w tr tp eeo forced ve ihw =>
    simp only [Expr.wf, Bool.and_eq_true, Bool.or_eq_true] at hwf
    obtain ⟨⟨⟨⟨h1, h2⟩, h3⟩, h4⟩, hw⟩ := hwf
    rw [transparent_unwrap]
    by_cases hc : (tp && !(ve && !tr)) = true
    · rw [if_pos hc]
      rw [ihw hw]
      rw [early_unwrap, if_pos ?_]
      simp only [Bool.and_eq_true, Bool.not_eq_true'] at hc ⊢
      constructor
      · -- not forced: if forced then ve (h2) and then either tr (excluded
        -- by h3) or uses_var (excluded by hc)
        cases hf : forced
        · rfl
        · exfalso
          rcases h2 with h2 | h2
          · rw [hf] at h2; exact Bool.noConfusion h2
          · rcases h3 with h3 | h3
            · cases htr : tr
              · have := hc.2
                rw [h2, htr] at this
                simp at this
              · rw [htr] at h3; exact Bool.noConfusion h3
            · rw [hf] at h3; exact Bool.noConfusion h3
      · -- not emit_exactly_once: eeo excludes transparent (h4), but hc
        -- gives transparent
        rcases h4 with h4 | h4
        · simpa using h4
        · exfalso
          rw [hc.1] at h4
          exact Bool.noConfusion h4
    · rw [if_neg hc]
  | _ => rfl

end M2C

namespace M2C

/-! ## Naive phi resolution (translate.py lines 3907-4002)

The processing of one used NaivePhiExpr inside assign_naive_phis.  A
source of the phi resolves (lines 3926-3934) through instr_nodes and
get_block_info(node).final_register_states[phi.reg] to the final register
value of one predecessor defining point; a phi input is therefore modelled
as a pair of the node index and that value.  The phi.type unifications at
lines 3935 and 3986 act on the external type system. -/

/-- as_type(expr, type, silent=True) (lines 112-117): after
expr.type.unify(type) has succeeded — which assign_naive_phis establishes
by unifying each source type with the phi type at line 3935 — the first
branch returns the expression unchanged. -/
def as_type_silent_unified (e : Expr) : Expr := e

/-- Append a node to the group of its key, preserving insertion order
(Python defaultdict(list) on an insertion-ordered dict). -/
def addToGroups (gs : List (Expr × List Nat)) (k : Expr) (n : Nat) :
    List (Expr × List Nat) :=
  match gs with
  | [] => [(k, [n])]
  | (k0, ns) :: rest =>
    if k0 = k then (k0, ns ++ [n]) :: rest else (k0, ns) :: addToGroups rest k n

/-- Lines 3925-3936: group the parent nodes by the transparent_unwrap of
their phi register value. -/
def groupSourcesAux (gs : List (Expr × List Nat)) :
    List (Nat × Expr) → List (Expr × List Nat)
  | [] => gs
  | (n, e) :: rest => groupSourcesAux (addToGroups gs (transparent_unwrap e) n) rest

/-- The equivalent_nodes dictionary of assign_naive_phis. -/
def groupSources (l : List (Nat × Expr)) : List (Expr × List Nat) :=
  groupSourcesAux [] l

/-- The final register value of a node (the re-read at line 3984). -/
def lookupNodeExpr : List (Nat × Expr) → Nat → Expr
  | [], _ => .ErrorE 0 none
  | (m, e) :: rest, n => if m = n then e else lookupNodeExpr rest n

/-- Outcome of assign_naive_phis for one used phi: the replacement
expression if the phi collapsed, the SetNaivePhiStmt records appended to
the ends of the predecessor blocks (node, assigned expression), and
whether the naming loop at lines 3990-3997 creates a fresh phi variable
for it. -/
structure PhiResolution where
  replacement_expr : Option Expr
  stmts : List (Nat × Expr)
  creates_phi_var : Bool
  deriving DecidableEq, Repr

/-- One iteration of the loop of assign_naive_phis (lines 3918-3988)
together with the naming loop (lines 3990-3997) for one phi:
group the sources by transparent_unwrap; if the early_unwrap of all group
keys agree, set replacement_expr to the shared value (the lone key if the
group is unique, otherwise the early-unwrapped value) and append no
statements; otherwise append one SetNaivePhiStmt per grouped node carrying
that node's register value, and name a fresh phi variable. -/
def assign_naive_phi_one (sources : List (Nat × Expr)) : PhiResolution :=
  match (groupSources sources).map Prod.fst with
  | [] => { replacement_expr := none, stmts := [], creates_phi_var := false }
  | e0 :: restE =>
    if restE.all (fun e => early_unwrap e == early_unwrap e0) then
      { replacement_expr :=
          some (as_type_silent_unified (if restE.isEmpty then e0 else early_unwrap e0)),
        stmts := [], creates_phi_var := false }
    else
      { replacement_expr := none,
        stmts := (groupSources sources).flatMap (fun g =>
          g.2.map (fun n => (n, as_type_silent_unified (lookupNodeExpr sources n)))),
        creates_phi_var := true }

/-- NaivePhiExpr.format (lines 1833-1836): the replacement expression when
set, the phi variable name otherwise. -/
def naivePhiFormat (res : PhiResolution) (phi_name : String) : String :=
  match res.replacement_expr with
  | some e => e.fmt
  | none => phi_name

end M2C

namespace M2C

/-- early_unwrap is idempotent. -/
theorem early_unwrap_idem (e : Expr) : early_unwrap (early_unwrap e) = early_unwrap e := by
  induction e with
  | EvalOnce u w tr tp eeo forced ve ihw =>
    rw [early_unwrap]
    by_cases hc : (!forced && !eeo) = true
    · rw [if_pos hc, ihw]
    · rw [if_neg hc, early_unwrap, if_neg hc]
  | _ => rfl

/-- Transparent unwrapping never changes how a snapshot formats: a
transparent wrapper that does not use its var formats as its wrapped
expression (EvalOnceExpr.format, lines 1766-1770). -/
theorem fmt_transparent_unwrap (e : Expr) : (transparent_unwrap e).fmt = e.fmt := by
  induction e with
  | EvalOnce u w tr tp eeo forced ve ihw =>
    rw [transparent_unwrap]
    by_cases hc : (tp && !(ve && !tr)) = true
    · rw [if_pos hc, ihw]
      simp only [Bool.and_eq_true, Bool.not_eq_true'] at hc
      simp [Expr.fmt, hc.2]
    · rw [if_neg hc]
  | _ => rfl

/-- The keys after inserting a node: unchanged when the key is present,
appended otherwise. -/
theorem addToGroups_keys (gs : List (Expr × List Nat)) (k : Expr) (n : Nat) :
    (addToGroups gs k n).map Prod.fst =
      if k ∈ gs.map Prod.fst then gs.map Prod.fst else gs.map Prod.fst ++ [k] := by
  induction gs with
  | nil => simp [addToGroups]
  | cons g rest ih =>
    obtain ⟨k0, ns⟩ := g
    by_cases hk : k0 = k
    · subst hk
      simp [addToGroups]
    · rw [addToGroups, if_neg hk]
      simp only [List.map_cons, ih]
      by_cases hmem : k ∈ rest.map Prod.fst
      · rw [if_pos hmem, if_pos (by simp [hmem])]
      · rw [if_neg hmem, if_neg ?_]
        · simp
        · simp only [List.mem_cons]
          rintro (h | h)
          · exact hk h.symm
          · exact hmem h

/-- Every group key of the grouping comes from an initial key or from the
transparent_unwrap of some source. -/
theorem groupKeys_sound : ∀ (l : List (Nat × Expr)) (gs : List (Expr × List Nat))
    (k : Expr), k ∈ (groupSourcesAux gs l).map Prod.fst →
    k ∈ gs.map Prod.fst ∨ ∃ p ∈ l, k = transparent_unwrap p.2 := by
  intro l
  induction l with
  | nil =>
    intro gs k h
    exact Or.inl h
  | cons p rest ih =>
    intro gs k h
    obtain ⟨n, e⟩ := p
    rw [groupSourcesAux] at h
    rcases ih _ k h with h2 | h2
    · rw [addToGroups_keys] at h2
      by_cases hmem : transparent_unwrap e ∈ gs.map Prod.fst
      · rw [if_pos hmem] at h2
        exact Or.inl h2
      · rw [if_neg hmem] at h2
        rcases List.mem_append.mp h2 with h3 | h3
        · exact Or.inl h3
        · right
          exact ⟨(n, e), by simp, by simpa using h3⟩
    · right
      obtain ⟨q, hq, hqe⟩ := h2
      exact ⟨q, by simp [hq], hqe⟩

/-- The key of every source appears among the group keys. -/
theorem groupKeys_complete : ∀ (l : List (Nat × Expr)) (gs : List (Expr × List Nat))
    (p : Nat × Expr), p ∈ l →
    transparent_unwrap p.2 ∈ (groupSourcesAux gs l).map Prod.fst := by
  have hmono : ∀ (l : List (Nat × Expr)) (gs : List (Expr × List Nat)) (k : Expr),
      k ∈ gs.map Prod.fst → k ∈ (groupSourcesAux gs l).map Prod.fst := by
    intro l
    induction l with
    | nil => intro gs k h; exact h
    | cons q rest ih =>
      intro gs k h
      obtain ⟨n, e⟩ := q
      rw [groupSourcesAux]
      apply ih
      rw [addToGroups_keys]
      split
      · exact h
      · exact List.mem_append.mpr (Or.inl h)
  intro l
  induction l with
  | nil => intro gs p h; simp at h
  | cons q rest ih =>
    intro gs p h
    rcases List.mem_cons.mp h with h | h
    · subst h
      obtain ⟨n, e⟩ := p
      rw [groupSourcesAux]
      apply hmono
      rw [addToGroups_keys]
      split
      · assumption
      · simp
    · exact ih _ p h

/-- The group keys are pairwise distinct. -/
theorem groupKeys_nodup : ∀ (l : List (Nat × Expr)) (gs : List (Expr × List Nat)),
    (gs.map Prod.fst).Nodup → ((groupSourcesAux gs l).map Prod.fst).Nodup := by
  intro l
  induction l with
  | nil => intro gs h; exact h
  | cons q rest ih =>
    intro gs h
    obtain ⟨n, e⟩ := q
    rw [groupSourcesAux]
    apply ih
    rw [addToGroups_keys]
    split
    · exact h
    · rename_i hmem
      simp only [List.nodup_append, List.nodup_cons, List.nodup_nil]
      exact ⟨h, by simp, by simpa using hmem⟩

/-- The nodes collected over all groups. -/
def flatNodes (gs : List (Expr × List Nat)) : List Nat :=
  gs.flatMap Prod.snd

/-- Inserting a node adds it exactly once to the collected nodes. -/
theorem addToGroups_count (gs : List (Expr × List Nat)) (k : Expr) (n m : Nat) :
    (flatNodes (addToGroups gs k n)).count m =
      (flatNodes gs).count m + if n = m then 1 else 0 := by
  induction gs with
  | nil => simp [addToGroups, flatNodes, List.count_cons, List.count_singleton]
  | cons g rest ih =>
    obtain ⟨k0, ns⟩ := g
    by_cases hk : k0 = k
    · subst hk
      rw [addToGroups, if_pos rfl]
      simp only [flatNodes, List.flatMap_cons, List.count_append]
      by_cases hnm : n = m <;>
        simp [hnm, List.count_cons, beq_iff_eq] <;> omega
    · rw [addToGroups, if_neg hk]
      simp only [flatNodes, List.flatMap_cons, List.count_append] at ih ⊢
      rw [ih]
      omega

/-- Grouping preserves the multiset of nodes. -/
theorem groupSourcesAux_count : ∀ (l : List (Nat × Expr))
    (gs : List (Expr × List Nat)) (m : Nat),
    (flatNodes (groupSourcesAux gs l)).count m =
      (flatNodes gs).count m + (l.map Prod.fst).count m := by
  intro l
  induction l with
  | nil => intro gs m; simp [groupSourcesAux]
  | cons q rest ih =>
    intro gs m
    obtain ⟨n, e⟩ := q
    rw [groupSourcesAux, ih, addToGroups_count]
    simp only [List.map_cons, List.count_cons, beq_iff_eq]
    by_cases hnm : n = m <;> simp [hnm] <;> omega

/-- Projecting the nodes out of the statement list gives the collected
nodes of the groups. -/
theorem stmts_nodes (groups : List (Expr × List Nat)) (f : Nat → Expr) :
    ((groups.flatMap (fun g => g.2.map (fun n => (n, f n)))).map Prod.fst) =
      flatNodes groups := by
  induction groups with
  | nil => simp [flatNodes]
  | cons g rest ih =>
    have hmap : (g.2.map (fun n => (n, f n))).map Prod.fst = g.2 := by
      rw [List.map_map]
      have : (Prod.fst ∘ fun n => (n, f n)) = fun n : Nat => n := by
        funext n
        rfl
      rw [this, List.map_id']
    simp only [flatNodes, List.flatMap_cons, List.map_append, hmap]
    simp only [flatNodes] at ih
    rw [ih]

end M2C

namespace M2C

set_option maxHeartbeats 1000000 in
/-- Claim C2: for a used NaivePhiExpr processed by assign_naive_phis, with
wellformed source snapshots: if the final register values of all
predecessor sources are structurally equal under the unwrap-past-
temporaries equality (early_unwrap), the phi receives the shared value as
its replacement_expr (a value with the same early_unwrap as every source),
no new phi variable is created, zero SetNaivePhiStmt records are appended
to any predecessor block, and — whenever the sources agree already up to
transparent unwrapping, i.e. there is a single equivalence group — the phi
formats identically to every predecessor value.  Otherwise the phi keeps
no replacement, a fresh phi variable is named, and exactly one
SetNaivePhiStmt carrying that predecessor final register value is appended
per contributing source (one per predecessor block when distinct sources
live in distinct blocks). -/
theorem C2_phi_collapse (sources : List (Nat × Expr)) (hne : sources ≠ [])
    (hwf : ∀ p ∈ sources, (p.2).wf = true) :
    ((∀ p ∈ sources, ∀ q ∈ sources, early_unwrap p.2 = early_unwrap q.2) →
      ∃ shared,
        (assign_naive_phi_one sources).replacement_expr = some shared ∧
        (assign_naive_phi_one sources).stmts = [] ∧
        (assign_naive_phi_one sources).creates_phi_var = false ∧
        (∀ p ∈ sources, early_unwrap shared = early_unwrap p.2) ∧
        (∀ (phi_name : String), ∀ p ∈ sources,
          (∀ q ∈ sources, transparent_unwrap q.2 = transparent_unwrap p.2) →
          naivePhiFormat (assign_naive_phi_one sources) phi_name = (p.2).fmt)) ∧
    ((¬ ∀ p ∈ sources, ∀ q ∈ sources, early_unwrap p.2 = early_unwrap q.2) →
      (assign_naive_phi_one sources).replacement_expr = none ∧
      (assign_naive_phi_one sources).creates_phi_var = true ∧
      (∀ n : Nat, ((assign_naive_phi_one sources).stmts.map Prod.fst).count n =
        (sources.map Prod.fst).count n) ∧
      (∀ st ∈ (assign_naive_phi_one sources).stmts,
        st.2 = lookupNodeExpr sources st.1)) := by
  obtain ⟨s0, hs0⟩ : ∃ s, s ∈ sources := by
    cases sources with
    | nil => exact absurd rfl hne
    | cons a t => exact ⟨a, by simp⟩
  have hkey0 : transparent_unwrap s0.2 ∈ (groupSources sources).map Prod.fst :=
    groupKeys_complete sources [] s0 hs0
  constructor
  · intro hall
    have hkeyeq : ∀ k ∈ (groupSources sources).map Prod.fst,
        early_unwrap k = early_unwrap s0.2 := by
      intro k hk
      rcases groupKeys_sound sources [] k hk with h | ⟨p, hp, hpe⟩
      · simp at h
      · rw [hpe, early_unwrap_transparent_unwrap p.2 (hwf p hp)]
        exact hall p hp s0 hs0
    rcases hm : (groupSources sources).map Prod.fst with _ | ⟨e0, restE⟩
    · rw [hm] at hkey0
      simp at hkey0
    · have he0 : early_unwrap e0 = early_unwrap s0.2 :=
        hkeyeq e0 (by rw [hm]; simp)
      have hcond : (restE.all (fun e => early_unwrap e == early_unwrap e0)) = true := by
        rw [List.all_eq_true]
        intro e he
        have h1 : early_unwrap e = early_unwrap s0.2 :=
          hkeyeq e (by rw [hm]; exact List.mem_cons_of_mem _ he)
        simp [h1, he0]
      simp only [assign_naive_phi_one, hm, hcond]
      refine ⟨as_type_silent_unified (if restE.isEmpty then e0 else early_unwrap e0),
        ?_, ?_, ?_, ?_, ?_⟩
      · simp
      · simp
      · simp
      · intro p hp
        have hps : early_unwrap p.2 = early_unwrap s0.2 := hall p hp s0 hs0
        simp only [as_type_silent_unified]
        by_cases hre : restE.isEmpty = true
        · rw [if_pos hre, he0, hps]
        · rw [if_neg hre, early_unwrap_idem, he0, hps]
      · intro phi_name p hp htr
        have hnodup : ((groupSources sources).map Prod.fst).Nodup :=
          groupKeys_nodup sources [] (by simp)
        have hkeytr : ∀ k ∈ (groupSources sources).map Prod.fst,
            k = transparent_unwrap p.2 := by
          intro k hk
          rcases groupKeys_sound sources [] k hk with h | ⟨q, hq, hqe⟩
          · simp at h
          · rw [hqe]
            exact htr q hq
        have hk1 : e0 = transparent_unwrap p.2 := hkeytr e0 (by rw [hm]; simp)
        have hre : restE = [] := by
          cases hr : restE with
          | nil => rfl
          | cons k ks =>
            exfalso
            have hk2 : k = transparent_unwrap p.2 :=
              hkeytr k (by rw [hm, hr]; simp)
            rw [hm, hr] at hnodup
            rcases List.nodup_cons.mp hnodup with ⟨hnotmem, _⟩
            exact hnotmem (by rw [hk1, ← hk2]; simp)
        subst hre
        simp only [naivePhiFormat, as_type_silent_unified, List.isEmpty_nil, if_true]
        rw [hk1, fmt_transparent_unwrap]
  · intro hnall
    push_neg at hnall
    obtain ⟨p, hp, q, hq, hne2⟩ := hnall
    rcases hm : (groupSources sources).map Prod.fst with _ | ⟨e0, restE⟩
    · rw [hm] at hkey0
      simp at hkey0
    · have hcond : (restE.all (fun e => early_unwrap e == early_unwrap e0)) = false := by
        cases hc : restE.all (fun e => early_unwrap e == early_unwrap e0) with
        | false => rfl
        | true =>
          exfalso
          have hkeq : ∀ k ∈ e0 :: restE, early_unwrap k = early_unwrap e0 := by
            intro k hk
            rcases List.mem_cons.mp hk with h | h
            · rw [h]
            · have := List.all_eq_true.mp hc k h
              simpa using this
          have hkp : transparent_unwrap p.2 ∈ (groupSources sources).map Prod.fst :=
            groupKeys_complete sources [] p hp
          have hkq : transparent_unwrap q.2 ∈ (groupSources sources).map Prod.fst :=
            groupKeys_complete sources [] q hq
          rw [hm] at hkp hkq
          have h1 := hkeq _ hkp
          have h2 := hkeq _ hkq
          rw [early_unwrap_transparent_unwrap _ (hwf p hp)] at h1
          rw [early_unwrap_transparent_unwrap _ (hwf q hq)] at h2
          exact hne2 (h1.trans h2.symm)
      simp only [assign_naive_phi_one, hm, hcond]
      refine ⟨?_, ?_, ?_, ?_⟩
      · simp
      · simp
      · intro n
        simp only [Bool.false_eq_true, if_false]
        rw [stmts_nodes]
        have hcnt : (flatNodes (groupSources sources)).count n =
            (flatNodes ([] : List (Expr × List Nat))).count n +
              (sources.map Prod.fst).count n :=
          groupSourcesAux_count sources [] n
        rw [hcnt]
        simp [flatNodes]
      · intro st hst
        simp only [Bool.false_eq_true, if_false] at hst
        rcases List.mem_flatMap.mp hst with ⟨g, hg, hstg⟩
        rcases List.mem_map.mp hstg with ⟨n0, hn0, heq⟩
        rw [← heq]
        rfl

/-- Sample phi inputs: two predecessor blocks supplying the same literal. -/
def phiSourcesEqual : List (Nat × Expr) := [(1, .Lit 5), (2, .Lit 5)]

/-- Sample phi inputs: two predecessor blocks supplying different values. -/
def phiSourcesDiff : List (Nat × Expr) := [(1, .Lit 5), (2, .Lit 6)]

/-- Witness for C2_phi_collapse on concrete inputs: two blocks supplying
the literal 5 collapse with no statements; blocks supplying 5 and 6 get
one assignment each and a fresh phi variable. -/
theorem C2_phi_collapse_witness :
    (∃ shared,
      (assign_naive_phi_one phiSourcesEqual).replacement_expr = some shared ∧
      (assign_naive_phi_one phiSourcesEqual).stmts = [] ∧
      (assign_naive_phi_one phiSourcesEqual).creates_phi_var = false ∧
      (∀ p ∈ phiSourcesEqual, early_unwrap shared = early_unwrap p.2) ∧
      (∀ (phi_name : String), ∀ p ∈ phiSourcesEqual,
        (∀ q ∈ phiSourcesEqual, transparent_unwrap q.2 = transparent_unwrap p.2) →
        naivePhiFormat (assign_naive_phi_one phiSourcesEqual) phi_name = (p.2).fmt)) ∧
    ((assign_naive_phi_one phiSourcesDiff).replacement_expr = none ∧
      (assign_naive_phi_one phiSourcesDiff).creates_phi_var = true ∧
      (∀ n : Nat, ((assign_naive_phi_one phiSourcesDiff).stmts.map Prod.fst).count n =
        (phiSourcesDiff.map Prod.fst).count n) ∧
      (∀ st ∈ (assign_naive_phi_one phiSourcesDiff).stmts,
        st.2 = lookupNodeExpr phiSourcesDiff st.1)) :=
  ⟨(C2_phi_collapse phiSourcesEqual (by decide) (by decide)).1 (by decide),
   (C2_phi_collapse phiSourcesDiff (by decide) (by decide)).2 (by decide)⟩

end M2C

namespace M2C

/-! ## C10 development -/

/-- Modelled from the spec: the flow-graph collaborator (spec 7: "a FlowGraph
(nodes, parent/child, immediate-dominator, registers-clobbered-on-path-to-dominator query)", defined outside src/).  Nodes are numbered; `parentsMap`
associates each node with its list of CFG parents (predecessors), `blockMap`
with the instruction list of its block.  Lookups default to the empty list. -/
structure CFG where
  entry : Nat
  parentsMap : List (Nat × List Nat)
  blockMap : List (Nat × List Instruction)

/-- All nodes mentioned by a parents association list. -/
def univOf : List (Nat × List Nat) → List Nat
  | [] => []
  | kv :: rest => kv.1 :: kv.2 ++ univOf rest

def CFG.parents (g : CFG) (n : Nat) : List Nat :=
  match g.parentsMap.find? (fun kv => kv.1 == n) with
  | some kv => kv.2
  | none => []

def CFG.instrs (g : CFG) (n : Nat) : List Instruction :=
  match g.blockMap.find? (fun kv => kv.1 == n) with
  | some kv => kv.2
  | none => []

def CFG.univList (g : CFG) : List Nat := univOf g.parentsMap

theorem mem_univOf (l : List (Nat × List Nat)) (kv : Nat × List Nat)
    (h : kv ∈ l) : kv.1 ∈ univOf l := by
  induction l with
  | nil => simp at h
  | cons a rest ih =>
    rcases List.mem_cons.mp h with h | h
    · subst h; simp [univOf]
    · simp [univOf, ih h]

theorem parents_eq_nil_of_not_mem_univ (g : CFG) (n : Nat)
    (h : n ∉ g.univList) : g.parents n = [] := by
  unfold CFG.parents
  cases hf : g.parentsMap.find? (fun kv => kv.1 == n) with
  | none => rfl
  | some kv =>
    have hm := List.mem_of_find?_eq_some hf
    have hp := @List.find?_some _ (fun kv => kv.1 == n) kv g.parentsMap hf
    have h1 : kv.1 = n := by simpa using hp
    exact absurd (h1 ▸ mem_univOf g.parentsMap kv hm) h

/-- Result of scanning one block backwards for the given register
(the inner `for instr in reversed(...)` loop of reg_sources,
lines 3896-3902): the index of the last write, a clobber hit, or no
occurrence. -/
inductive ScanResult where
  | wrote (idx : Nat)
  | clobbered
  | nothing
  deriving DecidableEq, Repr

def scanRevList (reg : Register) : List (Nat × Instruction) → ScanResult
  | [] => .nothing
  | (i, instr) :: rest =>
    if reg ∈ instr.outputs then .wrote i
    else if reg ∈ instr.clobbers then .clobbered
    else scanRevList reg rest

/-- Backward scan of the block of node n for reg (lines 3896-3902), identifying
the hit instruction by its index in the block. -/
def CFG.scan (g : CFG) (reg : Register) (n : Nat) : ScanResult :=
  scanRevList reg ((g.instrs n).enum.reverse)

/-- Weight of a node for the worklist termination measure: expanding a node
pushes its parents, so its weight covers that growth. -/
def CFG.nodeWeight (g : CFG) (u : Nat) : Nat := 1 + (g.parents u).length

/-- Total weight of yet-unseen nodes; decreases whenever a new node is seen. -/
def seenMeasure (g : CFG) (seen : List Nat) : Nat :=
  ((g.univList.filter (fun u => decide (u ∉ seen))).map g.nodeWeight).sum

theorem sumW_cons_le (w : Nat → Nat) (n : Nat) (seen : List Nat) :
    ∀ L : List Nat,
      ((L.filter (fun u => decide (u ∉ n :: seen))).map w).sum ≤
      ((L.filter (fun u => decide (u ∉ seen))).map w).sum := by
  intro L
  induction L with
  | nil => simp
  | cons a rest ih =>
    by_cases h1 : a ∈ seen
    · have h2 : a ∈ n :: seen := List.mem_cons_of_mem _ h1
      have e1 : decide (a ∉ n :: seen) = false := by simp [h2]
      have e2 : decide (a ∉ seen) = false := by simp [h1]
      rw [List.filter_cons, List.filter_cons, e1, e2]
      simpa using ih
    · by_cases h3 : a = n
      · subst h3
        have e1 : decide (a ∉ a :: seen) = false := by simp
        have e2 : decide (a ∉ seen) = true := by simp [h1]
        rw [List.filter_cons, List.filter_cons, e1, e2]
        simp only [Bool.false_eq_true, if_false, if_true, List.map_cons,
          List.sum_cons]
        exact le_trans ih (Nat.le_add_left _ _)
      · have e1 : decide (a ∉ n :: seen) = true := by simp [h3, h1]
        have e2 : decide (a ∉ seen) = true := by simp [h1]
        rw [List.filter_cons, List.filter_cons, e1, e2]
        simp only [if_true, List.map_cons, List.sum_cons]
        exact Nat.add_le_add_left ih _

theorem sumW_mem_le (w : Nat → Nat) (n : Nat) (seen : List Nat)
    (hns : n ∉ seen) :
    ∀ L : List Nat, n ∈ L →
      ((L.filter (fun u => decide (u ∉ n :: seen))).map w).sum + w n ≤
      ((L.filter (fun u => decide (u ∉ seen))).map w).sum := by
  intro L
  induction L with
  | nil => simp
  | cons a rest ih =>
    intro hmem
    by_cases h3 : a = n
    · subst h3
      have e1 : decide (a ∉ a :: seen) = false := by simp
      have e2 : decide (a ∉ seen) = true := by simp [hns]
      rw [List.filter_cons, List.filter_cons, e1, e2]
      simp only [Bool.false_eq_true, if_false, if_true, List.map_cons,
        List.sum_cons]
      have := sumW_cons_le w a seen rest
      omega
    · rcases List.mem_cons.mp hmem with h | h
      · exact absurd h.symm h3
      · have ihh := ih h
        by_cases h1 : a ∈ seen
        · have h2 : a ∈ n :: seen := List.mem_cons_of_mem _ h1
          have e1 : decide (a ∉ n :: seen) = false := by simp [h2]
          have e2 : decide (a ∉ seen) = false := by simp [h1]
          rw [List.filter_cons, List.filter_cons, e1, e2]
          simpa using ihh
        · have e1 : decide (a ∉ n :: seen) = true := by simp [h3, h1]
          have e2 : decide (a ∉ seen) = true := by simp [h1]
          rw [List.filter_cons, List.filter_cons, e1, e2]
          simp only [if_true, List.map_cons, List.sum_cons]
          omega

/-- The reg_sources worklist loop (translate.py lines 3887-3903).  State:
visited set `seen`, work stack, collected `sources`, `uses_dominator` flag.
Python pops from the end of the work stack; we pop from the head, which
changes only the traversal order — the properties proved below (membership
in the collected source set, the uses_dominator flag, abort behavior) are
traversal-order independent.  A node hitting `reg in instr.clobbers` makes
the whole call return `([], False)` (line 3900).  A source is identified by
its (node, instruction index) pair, standing for the Python Instruction
object identity. -/
def regSourcesLoop (g : CFG) (reg : Register) (idom : Nat) :
    List Nat → List Nat → List (Nat × Nat) → Bool → List (Nat × Nat) × Bool
  | _, [], sources, ud => (sources, ud)
  | seen, n :: stack, sources, ud =>
    let ud2 := ud || (n == idom)
    if hn : n ∈ seen then
      regSourcesLoop g reg idom seen stack sources ud2
    else
      match g.scan reg n with
      | .wrote i =>
        regSourcesLoop g reg idom (n :: seen) stack (sources ++ [(n, i)]) ud2
      | .clobbered => ([], false)
      | .nothing =>
        regSourcesLoop g reg idom (n :: seen) (stack ++ g.parents n) sources ud2
termination_by seen stack _ _ => seenMeasure g seen + stack.length
decreasing_by
  · simp only [List.length_cons]
    omega
  · have h := sumW_cons_le g.nodeWeight n seen g.univList
    simp only [seenMeasure, List.length_cons] at *
    omega
  · by_cases hu : n ∈ g.univList
    · have h := sumW_mem_le g.nodeWeight n seen hn g.univList hu
      simp only [seenMeasure, CFG.nodeWeight, List.length_cons,
        List.length_append] at *
      omega
    · have hp := parents_eq_nil_of_not_mem_univ g n hu
      have h := sumW_cons_le g.nodeWeight n seen g.univList
      simp only [seenMeasure, List.length_cons, List.length_append, hp,
        List.length_nil] at *
      omega

/-- reg_sources (translate.py lines 3882-3904): seen starts as the singleton
immediate dominator, the stack as the parents of the node. -/
def reg_sources (g : CFG) (child idom : Nat) (reg : Register) :
    List (Nat × Nat) × Bool :=
  regSourcesLoop g reg idom [idom] (g.parents child) [] false

/-- Backward reachability through blocks the reg_sources walk expands: a
node is expandable-reachable from the work stack if a chain of parent steps
leads to it, every intermediate node being unseen and scanning to
`nothing` (so the walk pushes its parents, line 3903). -/
inductive ExpandsG (g : CFG) (reg : Register) (seen : List Nat)
    (stack : List Nat) : Nat → Prop
  | base {x : Nat} : x ∈ stack → ExpandsG g reg seen stack x
  | step {x y : Nat} : ExpandsG g reg seen stack y → y ∉ seen →
      g.scan reg y = ScanResult.nothing → x ∈ g.parents y →
      ExpandsG g reg seen stack x

theorem expandsG_nil (g : CFG) (reg : Register) (seen : List Nat) (x : Nat) :
    ¬ ExpandsG g reg seen [] x := by
  intro h
  induction h with
  | base hx => simp at hx
  | step hy hns hsc hp ih => exact ih

theorem expandsG_skip (g : CFG) (reg : Register) (seen : List Nat)
    (n : Nat) (stack : List Nat) (hn : n ∈ seen) :
    ∀ x, ExpandsG g reg seen (n :: stack) x →
      x = n ∨ ExpandsG g reg seen stack x := by
  intro x h
  induction h with
  | base hx =>
    rcases List.mem_cons.mp hx with h | h
    · exact Or.inl h
    · exact Or.inr (ExpandsG.base h)
  | step hy hns hsc hp ih =>
    rcases ih with h | h
    · exact absurd (h ▸ hn) hns
    · exact Or.inr (ExpandsG.step h hns hsc hp)

theorem expandsG_wrote (g : CFG) (reg : Register) (seen : List Nat)
    (n : Nat) (stack : List Nat) (i : Nat)
    (hsc : g.scan reg n = ScanResult.wrote i) :
    ∀ x, ExpandsG g reg seen (n :: stack) x →
      x = n ∨ ExpandsG g reg (n :: seen) stack x := by
  intro x h
  induction h with
  | base hx =>
    rcases List.mem_cons.mp hx with h | h
    · exact Or.inl h
    · exact Or.inr (ExpandsG.base h)
  | step hy hns hsc2 hp ih =>
    rename_i x2 y2
    rcases ih with h | h
    · rw [h] at hsc2
      rw [hsc2] at hsc
      exact absurd hsc (by simp)
    · have hyn : y2 ≠ n := by
        intro he
        rw [he] at hsc2
        rw [hsc2] at hsc
        exact absurd hsc (by simp)
      exact Or.inr (ExpandsG.step h (by simp [hyn, hns]) hsc2 hp)

theorem expandsG_expand (g : CFG) (reg : Register) (seen : List Nat)
    (n : Nat) (stack : List Nat)
    (hsc : g.scan reg n = ScanResult.nothing) :
    ∀ x, ExpandsG g reg seen (n :: stack) x →
      x = n ∨ ExpandsG g reg (n :: seen) (stack ++ g.parents n) x := by
  intro x h
  induction h with
  | base hx =>
    rcases List.mem_cons.mp hx with h | h
    · exact Or.inl h
    · exact Or.inr (ExpandsG.base (List.mem_append_left _ h))
  | step hy hns hsc2 hp ih =>
    rename_i x2 y2
    by_cases hyn : y2 = n
    · subst hyn
      exact Or.inr (ExpandsG.base (List.mem_append_right _ hp))
    · rcases ih with h | h
      · exact absurd h hyn
      · exact Or.inr (ExpandsG.step h (by simp [hyn, hns]) hsc2 hp)

theorem loop_ud_mono (g : CFG) (reg : Register) (idom : Nat) :
    ∀ seen stack sources ud S U,
      regSourcesLoop g reg idom seen stack sources ud = (S, U) →
      (S ≠ [] ∨ U = true) → ud = true → U = true := by
  intro seen stack sources ud
  induction seen, stack, sources, ud using regSourcesLoop.induct g reg idom with
  | case1 seen sources ud =>
    intro S U hres hnt hud
    rw [regSourcesLoop] at hres
    injection hres with h1 h2
    exact h2 ▸ hud
  | case2 seen n stack sources ud ud2 hn ih =>
    intro S U hres hnt hud
    rw [regSourcesLoop, dif_pos hn] at hres
    exact ih S U hres hnt (by show (ud || (n == idom)) = true; simp [hud])
  | case3 seen n stack sources ud ud2 hn i hsc ih =>
    intro S U hres hnt hud
    rw [regSourcesLoop, dif_neg hn, hsc] at hres
    exact ih S U hres hnt (by show (ud || (n == idom)) = true; simp [hud])
  | case4 seen n stack sources ud hn hsc =>
    intro S U hres hnt hud
    rw [regSourcesLoop, dif_neg hn, hsc] at hres
    injection hres with h1 h2
    rcases hnt with h | h
    · exact absurd h1.symm h
    · exact h
  | case5 seen n stack sources ud ud2 hn hsc ih =>
    intro S U hres hnt hud
    rw [regSourcesLoop, dif_neg hn, hsc] at hres
    exact ih S U hres hnt (by show (ud || (n == idom)) = true; simp [hud])

theorem loop_sources_mono (g : CFG) (reg : Register) (idom : Nat) :
    ∀ seen stack sources ud S U,
      regSourcesLoop g reg idom seen stack sources ud = (S, U) →
      (S ≠ [] ∨ U = true) → ∀ a ∈ sources, a ∈ S := by
  intro seen stack sources ud
  induction seen, stack, sources, ud using regSourcesLoop.induct g reg idom with
  | case1 seen sources ud =>
    intro S U hres hnt a ha
    rw [regSourcesLoop] at hres
    injection hres with h1 h2
    exact h1 ▸ ha
  | case2 seen n stack sources ud ud2 hn ih =>
    intro S U hres hnt a ha
    rw [regSourcesLoop, dif_pos hn] at hres
    exact ih S U hres hnt a ha
  | case3 seen n stack sources ud ud2 hn i hsc ih =>
    intro S U hres hnt a ha
    rw [regSourcesLoop, dif_neg hn, hsc] at hres
    exact ih S U hres hnt a (List.mem_append_left _ ha)
  | case4 seen n stack sources ud hn hsc =>
    intro S U hres hnt a ha
    rw [regSourcesLoop, dif_neg hn, hsc] at hres
    injection hres with h1 h2
    rcases hnt with h | h
    · exact absurd h1.symm h
    · exact absurd h2.symm (by simp [h])
  | case5 seen n stack sources ud ud2 hn hsc ih =>
    intro S U hres hnt a ha
    rw [regSourcesLoop, dif_neg hn, hsc] at hres
    exact ih S U hres hnt a ha

/-- Completeness of the reg_sources walk: on a non-aborted run, every
expandable-reachable node has been popped, so reaching the dominator sets
uses_dominator, a reachable clobbering block is impossible, and a reachable
writing block has contributed its source. -/
theorem loop_complete (g : CFG) (reg : Register) (idom : Nat) :
    ∀ seen stack sources ud S U,
      regSourcesLoop g reg idom seen stack sources ud = (S, U) →
      (S ≠ [] ∨ U = true) →
      ∀ x, ExpandsG g reg seen stack x →
        (x = idom → U = true) ∧
        (x ∉ seen → g.scan reg x ≠ ScanResult.clobbered ∧
          ∀ i, g.scan reg x = ScanResult.wrote i → (x, i) ∈ S) := by
  intro seen stack sources ud
  induction seen, stack, sources, ud using regSourcesLoop.induct g reg idom with
  | case1 seen sources ud =>
    intro S U hres hnt x hx
    exact absurd hx (expandsG_nil g reg seen x)
  | case2 seen n stack sources ud ud2 hn ih =>
    intro S U hres hnt x hx
    rw [regSourcesLoop, dif_pos hn] at hres
    by_cases hxn : x = n
    · constructor
      · intro hxi
        have hni : n = idom := hxn.symm.trans hxi
        exact loop_ud_mono g reg idom _ _ _ _ S U hres hnt
          (by show (ud || (n == idom)) = true; simp [hni])
      · intro hxs
        exact absurd (by rw [hxn]; exact hn) hxs
    · rcases expandsG_skip g reg seen n stack hn x hx with h | h
      · exact absurd h hxn
      · exact ih S U hres hnt x h
  | case3 seen n stack sources ud ud2 hn i hsc ih =>
    intro S U hres hnt x hx
    rw [regSourcesLoop, dif_neg hn, hsc] at hres
    by_cases hxn : x = n
    · constructor
      · intro hxi
        have hni : n = idom := hxn.symm.trans hxi
        exact loop_ud_mono g reg idom _ _ _ _ S U hres hnt
          (by show (ud || (n == idom)) = true; simp [hni])
      · intro hxs
        constructor
        · rw [hxn, hsc]; simp
        · intro i2 hsc2
          rw [hxn] at hsc2
          rw [hsc] at hsc2
          injection hsc2 with hi
          rw [hxn, ← hi]
          exact loop_sources_mono g reg idom _ _ _ _ S U hres hnt (n, i)
            (by simp)
    · rcases expandsG_wrote g reg seen n stack i hsc x hx with h | h
      · exact absurd h hxn
      · have hcon := ih S U hres hnt x h
        refine ⟨hcon.1, ?_⟩
        intro hxs
        exact hcon.2 (by simp [hxn, hxs])
  | case4 seen n stack sources ud hn hsc =>
    intro S U hres hnt x hx
    rw [regSourcesLoop, dif_neg hn, hsc] at hres
    injection hres with h1 h2
    rcases hnt with h | h
    · exact absurd h1.symm h
    · exact absurd h2.symm (by simp [h])
  | case5 seen n stack sources ud ud2 hn hsc ih =>
    intro S U hres hnt x hx
    rw [regSourcesLoop, dif_neg hn, hsc] at hres
    by_cases hxn : x = n
    · constructor
      · intro hxi
        have hni : n = idom := hxn.symm.trans hxi
        exact loop_ud_mono g reg idom _ _ _ _ S U hres hnt
          (by show (ud || (n == idom)) = true; simp [hni])
      · intro hxs
        constructor
        · rw [hxn, hsc]; simp
        · intro i2 hsc2
          rw [hxn] at hsc2
          rw [hsc] at hsc2
          exact absurd hsc2 (by simp)
    · rcases expandsG_expand g reg seen n stack hsc x hx with h | h
      · exact absurd h hxn
      · have hcon := ih S U hres hnt x h
        refine ⟨hcon.1, ?_⟩
        intro hxs
        exact hcon.2 (by simp [hxn, hxs])

/-- Modelled from the spec: a control-flow path.  A nonempty node list is a
path when each node is a CFG parent (predecessor) of the next. -/
def IsPath (g : CFG) : List Nat → Prop
  | [] => False
  | [_] => True
  | a :: b :: rest => a ∈ g.parents b ∧ IsPath g (b :: rest)

instance isPathDecidable (g : CFG) : ∀ l : List Nat, Decidable (IsPath g l)
  | [] => isFalse (fun h => h)
  | [_] => isTrue trivial
  | a :: b :: rest =>
    have := isPathDecidable g (b :: rest)
    decidable_of_iff (a ∈ g.parents b ∧ IsPath g (b :: rest)) Iff.rfl

/-- Modelled from the spec (glossary: the dominator relation — "the closest
ancestor through which all control paths to it must pass"): w dominates n
when every path from the entry node to n passes through w. -/
def Dominates (g : CFG) (w n : Nat) : Prop :=
  ∀ P : List Nat, IsPath g P → P.head? = some g.entry →
    P.getLast? = some n → w ∈ P

/-- Modelled from the spec: d is the immediate dominator of n — d strictly
dominates n and every other strict dominator of n also dominates d (it lies
farther from n on the dominator chain). -/
def IsIdom (g : CFG) (d n : Nat) : Prop :=
  d ≠ n ∧ Dominates g d n ∧
  ∀ w, w ≠ n → w ≠ d → Dominates g w n → Dominates g w d

theorem dominates_entry (g : CFG) (n : Nat) : Dominates g g.entry n := by
  intro P hP hhead hlast
  cases P with
  | nil => simp at hhead
  | cons a rest =>
    have : a = g.entry := by simpa using hhead
    exact this ▸ List.mem_cons_self _ _

theorem isPath_suffix (g : CFG) :
    ∀ s t, IsPath g (s ++ t) → t ≠ [] → IsPath g t := by
  intro s
  induction s with
  | nil => intro t h _; exact h
  | cons a s2 ih =>
    intro t h ht
    apply ih t _ ht
    cases hst : s2 ++ t with
    | nil =>
      rcases List.append_eq_nil.mp hst with ⟨h1, h2⟩
      exact absurd h2 ht
    | cons b rest =>
      rw [List.cons_append, hst] at h
      exact h.2

theorem isPath_truncate (g : CFG) :
    ∀ s x t, IsPath g (s ++ x :: t) → IsPath g (s ++ [x]) := by
  intro s
  induction s with
  | nil => intro x t h; exact trivial
  | cons a s2 ih =>
    intro x t h
    cases s2 with
    | nil =>
      have h1 : a ∈ g.parents x := h.1
      exact ⟨h1, trivial⟩
    | cons b s3 =>
      exact ⟨h.1, ih x t h.2⟩

theorem isPath_glue (g : CFG) :
    ∀ A B x, IsPath g A → A.getLast? = some x → IsPath g (x :: B) →
      IsPath g (A ++ B) := by
  intro A
  induction A with
  | nil => intro B x h; exact False.elim h
  | cons a A2 ih =>
    intro B x h hlast hB
    cases A2 with
    | nil =>
      have hax : a = x := by simpa using hlast
      subst hax
      exact hB
    | cons b A3 =>
      have hlast2 : (b :: A3).getLast? = some x := by
        rw [List.getLast?_cons_cons] at hlast
        exact hlast
      exact ⟨h.1, ih B x h.2 hlast2 hB⟩

theorem mem_split_first {α : Type} [DecidableEq α] (a : α) :
    ∀ l : List α, a ∈ l → ∃ s t, l = s ++ a :: t ∧ a ∉ s := by
  intro l
  induction l with
  | nil => simp
  | cons b rest ih =>
    intro h
    by_cases hba : b = a
    · exact ⟨[], rest, by simp [hba], by simp⟩
    · rcases List.mem_cons.mp h with h1 | h1
      · exact absurd h1.symm hba
      · obtain ⟨s, t, heq, hns⟩ := ih h1
        exact ⟨b :: s, t, by simp [heq], by
          simp only [List.mem_cons]
          rintro (h2 | h2)
          · exact hba h2.symm
          · exact hns h2⟩

theorem mem_split_last {α : Type} [DecidableEq α] (a : α) :
    ∀ l : List α, a ∈ l → ∃ s t, l = s ++ a :: t ∧ a ∉ t := by
  intro l
  induction l with
  | nil => simp
  | cons b rest ih =>
    intro h
    by_cases har : a ∈ rest
    · obtain ⟨s, t, heq, hnt⟩ := ih har
      exact ⟨b :: s, t, by simp [heq], hnt⟩
    · rcases List.mem_cons.mp h with h1 | h1
      · exact ⟨[], rest, by simp [h1], har⟩
      · exact absurd h1 har

theorem split_last_prop {α : Type} (p : α → Prop) [DecidablePred p] :
    ∀ l : List α, (∃ u ∈ l, p u) →
      ∃ s u t, l = s ++ u :: t ∧ p u ∧ ∀ v ∈ t, ¬ p v := by
  intro l
  induction l with
  | nil => simp
  | cons a rest ih =>
    intro h
    by_cases hr : ∃ u ∈ rest, p u
    · obtain ⟨s, u, t, heq, hp, hall⟩ := ih hr
      exact ⟨a :: s, u, t, by simp [heq], hp, hall⟩
    · obtain ⟨u, hu, hpu⟩ := h
      rcases List.mem_cons.mp hu with h1 | h1
      · refine ⟨[], a, rest, rfl, h1 ▸ hpu, ?_⟩
        intro v hv hpv
        exact hr ⟨v, hv, hpv⟩
      · exact absurd ⟨u, h1, hpu⟩ hr

theorem decomp_last_two :
    ∀ P : List Nat, 2 ≤ P.length → ∀ c, P.getLast? = some c →
      ∃ s q, P = s ++ [q, c] := by
  intro P
  induction P with
  | nil => simp
  | cons a rest ih =>
    intro hlen c hlast
    cases rest with
    | nil => simp at hlen
    | cons b rest2 =>
      have hlast2 : (b :: rest2).getLast? = some c := by
        rw [List.getLast?_cons_cons] at hlast
        exact hlast
      cases rest2 with
      | nil =>
        have hbc : b = c := by simpa using hlast2
        exact ⟨[], a, by simp [hbc]⟩
      | cons d rest3 =>
        obtain ⟨s, q, heq⟩ := ih (by simp) c hlast2
        exact ⟨a :: s, q, by rw [List.cons_append, ← heq]⟩

theorem getLast?_append_right {α : Type} (A B : List α) (hB : B ≠ []) :
    (A ++ B).getLast? = B.getLast? := by
  induction A with
  | nil => simp
  | cons a A2 ih =>
    rw [List.cons_append]
    cases hab : A2 ++ B with
    | nil =>
      rcases List.append_eq_nil.mp hab with ⟨h1, h2⟩
      exact absurd h2 hB
    | cons x rest =>
      rw [List.getLast?_cons_cons, ← hab]
      exact ih

theorem head?_append_left {α : Type} (A B : List α) (hA : A ≠ []) :
    (A ++ B).head? = A.head? := by
  cases A with
  | nil => exact absurd rfl hA
  | cons a rest => simp

/-- Mutual strict domination is impossible when the dominated node is
reachable: used to rule out a second dominator between idom and the node. -/
theorem dominates_antisymm (g : CFG) (a b : Nat) (hab : a ≠ b)
    (hda : Dominates g a b) (hdb : Dominates g b a) :
    ∀ Q, IsPath g Q → Q.head? = some g.entry → Q.getLast? = some b →
      False := by
  suffices H : ∀ k Q, Q.length = k → IsPath g Q →
      Q.head? = some g.entry → Q.getLast? = some b → False by
    intro Q h1 h2 h3
    exact H Q.length Q rfl h1 h2 h3
  intro k
  induction k using Nat.strong_induction_on with
  | _ k ih =>
    intro Q hlen hP hhead hlast
    have haQ : a ∈ Q := hda Q hP hhead hlast
    obtain ⟨s, t, heqQ, hnas⟩ := mem_split_first a Q haQ
    by_cases hs : s = []
    · subst hs
      simp only [List.nil_append] at heqQ
      have hae : a = g.entry := by
        rw [heqQ] at hhead
        simpa using hhead
      have hba : b ∈ [a] := by
        apply hdb [a]
        · exact trivial
        · simpa using hae
        · simp
      simp at hba
      exact hab hba.symm
    · have hPa : IsPath g (s ++ [a]) :=
        isPath_truncate g s a t (heqQ ▸ hP)
      have hheada : (s ++ [a]).head? = some g.entry := by
        rw [head?_append_left s [a] hs]
        rw [heqQ, head?_append_left s (a :: t) hs] at hhead
        exact hhead
      have hlasta : (s ++ [a]).getLast? = some a := by simp
      have hbmem : b ∈ s ++ [a] := hdb _ hPa hheada hlasta
      have hbs : b ∈ s := by
        rcases List.mem_append.mp hbmem with h | h
        · exact h
        · simp at h
          exact absurd h.symm hab
      obtain ⟨s1, s2, heqs, hnbs1⟩ := mem_split_first b s hbs
      by_cases hs1 : s1 = []
      · subst hs1
        simp only [List.nil_append] at heqs
        have hbe : b = g.entry := by
          rw [heqs] at hheada
          simpa using hheada
        have hamem : a ∈ [b] := by
          apply hda [b]
          · exact trivial
          · simpa using hbe
          · simp
        simp at hamem
        exact hab hamem
      · have hPb : IsPath g (s1 ++ [b]) := by
          have : s ++ [a] = s1 ++ b :: (s2 ++ [a]) := by
            rw [heqs]; simp
          exact isPath_truncate g s1 b (s2 ++ [a]) (this ▸ hPa)
        have hheadb : (s1 ++ [b]).head? = some g.entry := by
          rw [head?_append_left s1 [b] hs1]
          rw [heqs] at hheada
          rw [head?_append_left (s1 ++ b :: s2) [a] (by simp),
            head?_append_left s1 (b :: s2) hs1] at hheada
          exact hheada
        have hlastb : (s1 ++ [b]).getLast? = some b := by simp
        have hshort : (s1 ++ [b]).length < k := by
          have : Q.length = s1.length + 1 + s2.length + 1 + t.length := by
            rw [heqQ, heqs]; simp; omega
          rw [hlen] at this
          simp
          omega
        exact ih (s1 ++ [b]).length hshort (s1 ++ [b]) rfl hPb hheadb hlastb

/-- A forward path from x to child whose interior avoids the dominator and
consists of scan-nothing blocks makes x expandable-reachable. -/
theorem expands_of_path (g : CFG) (reg : Register) (idom child : Nat) :
    ∀ (l : List Nat) (x : Nat), IsPath g (x :: l ++ [child]) →
      (∀ u ∈ l, u ≠ idom ∧ g.scan reg u = ScanResult.nothing) →
      ExpandsG g reg [idom] (g.parents child) x := by
  intro l
  induction l with
  | nil =>
    intro x h _
    exact ExpandsG.base h.1
  | cons u l2 ih =>
    intro x h hcond
    have hu := hcond u (by simp)
    have hx : x ∈ g.parents u := h.1
    have hrest : IsPath g (u :: l2 ++ [child]) := h.2
    exact ExpandsG.step (ih u hrest (fun v hv => hcond v (by simp [hv])))
      (by simp [hu.1]) hu.2 hx

/-- Backward reachability avoiding the dominator: exactly the set of nodes
the locs_clobbered_until_dominator worklist walk visits (the walk seeds
seen with the dominator and the stack with the parents of the node; the in-src
analogue is vars_clobbered_until_dominator, translate.py lines 3861-3879).
-/
inductive BackReachND (g : CFG) (avoid : Nat) (stack0 : List Nat) : Nat → Prop
  | base {x : Nat} : x ∈ stack0 → x ≠ avoid → BackReachND g avoid stack0 x
  | step {x y : Nat} : BackReachND g avoid stack0 y → x ∈ g.parents y →
      x ≠ avoid → BackReachND g avoid stack0 x

theorem backReachND_ne (g : CFG) (avoid : Nat) (s : List Nat) (x : Nat)
    (h : BackReachND g avoid s x) : x ≠ avoid := by
  cases h with
  | base h1 h2 => exact h2
  | step h1 h2 h3 => exact h3

theorem backReachND_single_dom (g : CFG) (d : Nat) :
    ∀ x, ¬ BackReachND g d [d] x := by
  intro x h
  induction h with
  | base hm hne => exact hne (by simpa using hm)
  | step hy hp hne ih => exact ih

/-- A block containing an instruction that writes or clobbers reg. -/
def blockWritesOrClobbers (g : CFG) (reg : Register) (n : Nat) : Prop :=
  ∃ instr ∈ g.instrs n, reg ∈ instr.outputs ∨ reg ∈ instr.clobbers

/-- Modelled from the spec: membership of reg in
locs_clobbered_until_dominator(child) (the flow-graph query "registers
clobbered on path to dominator", defined outside src/; spec 4.4:
"registers that may be clobbered along some path but not all spawn a phi
placeholder").  reg is in the set when some block visited by the walk —
i.e. backward-reachable from the parents of the node without passing the
dominator — contains an instruction writing or clobbering reg. -/
def locs_clobbered_has (g : CFG) (child idom : Nat) (reg : Register) : Prop :=
  ∃ B, BackReachND g idom (g.parents child) B ∧ blockWritesOrClobbers g reg B

theorem mem_enumFrom {α : Type} (instr : α) :
    ∀ (l : List α) (k : Nat), instr ∈ l → ∃ i, (i, instr) ∈ l.enumFrom k := by
  intro l
  induction l with
  | nil => simp
  | cons a rest ih =>
    intro k h
    rcases List.mem_cons.mp h with h1 | h1
    · exact ⟨k, by simp [List.enumFrom, h1]⟩
    · obtain ⟨i, hi⟩ := ih (k + 1) h1
      exact ⟨i, by simp [List.enumFrom]; exact Or.inr hi⟩

theorem scanRevList_ne_nothing (reg : Register) :
    ∀ (L : List (Nat × Instruction)) (i : Nat) (instr : Instruction),
      (i, instr) ∈ L → (reg ∈ instr.outputs ∨ reg ∈ instr.clobbers) →
      scanRevList reg L ≠ ScanResult.nothing := by
  intro L
  induction L with
  | nil => simp
  | cons p rest ih =>
    intro i instr hm hreg
    obtain ⟨j, ins⟩ := p
    rcases List.mem_cons.mp hm with h1 | h1
    · injection h1 with hj hins
      by_cases ho : reg ∈ ins.outputs
      · simp [scanRevList, ho]
      · have hc : reg ∈ ins.clobbers := by
          rcases hreg with h | h
          · exact absurd (hins ▸ h) ho
          · exact hins ▸ h
        simp [scanRevList, ho, hc]
    · by_cases ho : reg ∈ ins.outputs
      · simp [scanRevList, ho]
      · by_cases hc : reg ∈ ins.clobbers
        · simp [scanRevList, ho, hc]
        · simp only [scanRevList, ho, hc, if_false]
          exact ih i instr h1 hreg

theorem scan_ne_nothing (g : CFG) (reg : Register) (n : Nat)
    (h : blockWritesOrClobbers g reg n) :
    g.scan reg n ≠ ScanResult.nothing := by
  obtain ⟨instr, hmem, hreg⟩ := h
  obtain ⟨i, hi⟩ := mem_enumFrom instr (g.instrs n) 0 hmem
  have hrev : (i, instr) ∈ ((g.instrs n).enum).reverse := by
    rw [List.mem_reverse]
    exact hi
  exact scanRevList_ne_nothing reg _ i instr hrev hreg

/-- Along any dominator-avoiding backward chain there is a first block that
scans to something: it is expandable-reachable. -/
theorem expands_of_backReach (g : CFG) (reg : Register) (idom : Nat)
    (stack0 : List Nat) :
    ∀ x, BackReachND g idom stack0 x →
      (∃ B, ExpandsG g reg [idom] stack0 B ∧ B ≠ idom ∧
        g.scan reg B ≠ ScanResult.nothing) ∨
      ExpandsG g reg [idom] stack0 x := by
  intro x h
  induction h with
  | base hm hne => exact Or.inr (ExpandsG.base hm)
  | step hy hp hne ih =>
    rename_i x2 y2
    rcases ih with ⟨B, hB⟩ | hEy
    · exact Or.inl ⟨B, hB⟩
    · by_cases hsy : g.scan reg y2 = ScanResult.nothing
      · exact Or.inr (ExpandsG.step hEy
          (by simp [backReachND_ne g idom stack0 y2 hy]) hsy hp)
      · exact Or.inl ⟨y2, hEy, backReachND_ne g idom stack0 y2 hy, hsy⟩

theorem isPath_ne_nil (g : CFG) (P : List Nat) (h : IsPath g P) : P ≠ [] := by
  cases P with
  | nil => exact False.elim h
  | cons a rest => simp

theorem getLast?_mem {α : Type} :
    ∀ (l : List α) (a : α), l.getLast? = some a → a ∈ l := by
  intro l
  induction l with
  | nil => simp
  | cons x rest ih =>
    intro a h
    cases rest with
    | nil =>
      have : x = a := by simpa using h
      simp [this]
    | cons y rest2 =>
      rw [List.getLast?_cons_cons] at h
      exact List.mem_cons_of_mem _ (ih a h)

/-- When the immediate dominator is not the entry node, any witness path to
the child yields a path from the entry to the dominator. -/
theorem reach_idom (g : CFG) (d child : Nat) (hdomd : Dominates g d child)
    (hde : d ≠ g.entry) (P0 : List Nat) (hP0 : IsPath g P0)
    (hh0 : P0.head? = some g.entry) (hl0 : P0.getLast? = some child) :
    ∃ Pd, IsPath g Pd ∧ Pd.head? = some g.entry ∧ Pd.getLast? = some d := by
  obtain ⟨sd, td, heqd, _⟩ := mem_split_first d P0 (hdomd P0 hP0 hh0 hl0)
  have hsdne : sd ≠ [] := by
    intro h
    subst h
    simp only [List.nil_append] at heqd
    rw [heqd] at hh0
    have : d = g.entry := by simpa using hh0
    exact hde this
  refine ⟨sd ++ [d], isPath_truncate g sd d td (heqd ▸ hP0), ?_, by simp⟩
  rw [head?_append_left sd [d] hsdne]
  rw [heqd, head?_append_left sd (d :: td) hsdne] at hh0
  exact hh0

/-- A node whose only parent is itself cannot be reached from the entry
(unless it is the entry). -/
theorem no_self_parent_path (g : CFG) (c : Nat) (hce : c ≠ g.entry)
    (hpar : g.parents c = [c]) :
    ∀ k Q, Q.length = k → IsPath g Q → Q.head? = some g.entry →
      Q.getLast? = some c → False := by
  intro k
  induction k using Nat.strong_induction_on with
  | _ k ih =>
    intro Q hlen hP hh hl
    cases Q with
    | nil => simp at hh
    | cons a rest =>
      cases rest with
      | nil =>
        have hac : a = c := by simpa using hl
        have hae : a = g.entry := by simpa using hh
        exact hce (hac ▸ hae)
      | cons b rest2 =>
        obtain ⟨s, q, heq⟩ := decomp_last_two (a :: b :: rest2) (by simp) c hl
        have hq : q ∈ g.parents c := by
          have hsp : IsPath g (q :: [c]) :=
            isPath_suffix g s (q :: [c]) (heq ▸ hP) (by simp)
          exact hsp.1
        rw [hpar] at hq
        have hqc : q = c := by simpa using hq
        have hPp : IsPath g (s ++ [q]) :=
          isPath_truncate g s q [c] (heq ▸ hP)
        have hsne : s ≠ [] := by
          intro h
          subst h
          simp only [List.nil_append] at heq
          have : a = q := by
            have := congrArg List.head? heq
            simpa using this
          rw [heq] at hh
          have hqe : q = g.entry := by simpa using hh
          exact hce (hqc ▸ hqe)
        have hhp : (s ++ [q]).head? = some g.entry := by
          rw [head?_append_left s [q] hsne]
          rw [heq, head?_append_left s (q :: [c]) hsne] at hh
          exact hh
        have hlp : (s ++ [q]).getLast? = some c := by
          rw [List.getLast?_concat, hqc]
        have hlenQ : (a :: b :: rest2).length = s.length + 2 := by
          rw [heq]
          simp
        have hshort : (s ++ [q]).length < k := by
          rw [← hlen, hlenQ]
          simp
        exact ih _ hshort (s ++ [q]) rfl hPp hhp hlp

/-- On a non-aborted run with uses_dominator = false, every entry-to-child
path passing the dominator contributes a collected source that lies
strictly between the last dominator occurrence and the child, with a
scan-nothing, dominator-free tail leading to the child. -/
theorem path_gives_source (g : CFG) (reg : Register) (child d : Nat)
    (S : List (Nat × Nat))
    (hU : regSourcesLoop g reg d [d] (g.parents child) [] false = (S, false))
    (hSne : S ≠ []) (hdc : d ≠ child)
    (P : List Nat) (hP : IsPath g P) (hlast : P.getLast? = some child)
    (hdP : d ∈ P) :
    ∃ w i t, (w, i) ∈ S ∧ w ∈ P ∧ w ≠ d ∧ w ≠ child ∧
      IsPath g (w :: t ++ [child]) ∧
      ∀ u ∈ t, u ≠ d ∧ u ≠ child ∧ g.scan reg u = ScanResult.nothing := by
  obtain ⟨A, B, heqP, hdB⟩ := mem_split_last d P hdP
  have hBne : B ≠ [] := by
    intro h
    subst h
    rw [heqP] at hlast
    have : d = child := by simpa using hlast
    exact hdc this
  have hlastB : B.getLast? = some child := by
    rw [heqP, getLast?_append_right A (d :: B) (by simp)] at hlast
    cases B with
    | nil => exact absurd rfl hBne
    | cons b B2 =>
      rw [List.getLast?_cons_cons] at hlast
      exact hlast
  have hchildB : child ∈ B := getLast?_mem B child hlastB
  obtain ⟨l, rest, heqB, hncl⟩ := mem_split_first child B hchildB
  have hPdB : IsPath g (d :: B) :=
    isPath_suffix g A (d :: B) (by rw [← heqP]; exact hP) (by simp)
  have hPdl : IsPath g ((d :: l) ++ [child]) := by
    have he2 : d :: B = (d :: l) ++ child :: rest := by rw [heqB]; simp
    exact isPath_truncate g (d :: l) child rest (he2 ▸ hPdB)
  have hld : ∀ u ∈ l, u ≠ d := by
    intro u hu he
    exact hdB (by rw [heqB]; exact List.mem_append_left _ (he ▸ hu))
  have hlc2 : ∀ u ∈ l, u ≠ child := fun u hu he => hncl (he ▸ hu)
  by_cases hall : ∀ u ∈ l, g.scan reg u = ScanResult.nothing
  · exfalso
    have hExp : ExpandsG g reg [d] (g.parents child) d :=
      expands_of_path g reg d child l d hPdl
        (fun u hu => ⟨hld u hu, hall u hu⟩)
    have := (loop_complete g reg d [d] (g.parents child) [] false S false hU
      (Or.inl hSne) d hExp).1 rfl
    simp at this
  · push_neg at hall
    obtain ⟨u0, hu0, hpu0⟩ := hall
    obtain ⟨s, w, t, heql, hpw, hallt⟩ := split_last_prop
      (fun u => g.scan reg u ≠ ScanResult.nothing) l ⟨u0, hu0, hpu0⟩
    have halltn : ∀ v ∈ t, g.scan reg v = ScanResult.nothing := by
      intro v hv
      have := hallt v hv
      simpa using this
    have hwl : w ∈ l := by rw [heql]; simp
    have hw_ne_d : w ≠ d := hld w hwl
    have hw_ne_c : w ≠ child := hlc2 w hwl
    have htl : ∀ v ∈ t, v ∈ l := by
      intro v hv
      rw [heql]
      simp [hv]
    have hwt : IsPath g (w :: t ++ [child]) := by
      have he3 : (d :: l) ++ [child] = (d :: s) ++ (w :: t ++ [child]) := by
        rw [heql]
        simp
      exact isPath_suffix g (d :: s) (w :: t ++ [child]) (he3 ▸ hPdl)
        (by simp)
    have hExpw : ExpandsG g reg [d] (g.parents child) w :=
      expands_of_path g reg d child t w hwt
        (fun v hv => ⟨hld v (htl v hv), halltn v hv⟩)
    have hconc := (loop_complete g reg d [d] (g.parents child) [] false S false
      hU (Or.inl hSne) w hExpw).2 (by simp [hw_ne_d])
    cases hscw : g.scan reg w with
    | wrote i =>
      refine ⟨w, i, t, hconc.2 i hscw, ?_, hw_ne_d, hw_ne_c, hwt, ?_⟩
      · rw [heqP]
        refine List.mem_append.mpr (Or.inr ?_)
        refine List.mem_cons.mpr (Or.inr ?_)
        rw [heqB]
        exact List.mem_append_left _ hwl
      · intro u hu
        exact ⟨hld u (htl u hu), hlc2 u (htl u hu), halltn u hu⟩
    | clobbered => exact absurd hscw hconc.1
    | nothing => exact absurd hscw hpw

/-- The sources list assembled for reg by create_dominated_node_state
(translate.py lines 4633-4648): reg_sources provides the per-path
(sources, uses_dominator) pair; when the walk saw the dominator, the
register value of the dominator state contributes further sources: a missing
value (dom_expr None) empties the list, an EvalOnceExpr appends its single
defining source, a planned or naive phi extends with its own source list.
`domPart` abstracts the register value of the dominator as the contributed
source list (none for dom_expr None); the concrete values contributed by
the dominator are irrelevant to the assertions, only their count matters.
-/
def phiSources (bsources : List (Nat × Nat)) (uses_dominator : Bool)
    (domPart : Option (List (Nat × Nat))) : List (Nat × Nat) :=
  if uses_dominator then
    match domPart with
    | none => []
    | some l => bsources ++ l
  else bsources

/-- NaivePhiExpr.use bookkeeping (translate.py lines 1827-1831): the first
use appends the phi to the shared used_naive_phis queue; every use
increments num_usages. -/
structure NaivePhiUseState where
  num_usages : Nat := 0
  in_used_list : Bool := false
  deriving DecidableEq, Repr

def naive_phi_use (st : NaivePhiUseState) : NaivePhiUseState :=
  { num_usages := st.num_usages + 1,
    in_used_list := if st.num_usages == 0 then true else st.in_used_list }

/-- A NaivePhiExpr is in the used_naive_phis queue exactly when it has been
use()d at least once, and then its num_usages equals the use count. -/
theorem phi_use_iter :
    ∀ k : Nat,
      ((naive_phi_use^[k] ({} : NaivePhiUseState)).in_used_list = true ↔
        0 < k) ∧
      (naive_phi_use^[k] ({} : NaivePhiUseState)).num_usages = k := by
  intro k
  induction k with
  | zero => simp
  | succ k ih =>
    rw [Function.iterate_succ_apply']
    constructor
    · by_cases hk : k = 0
      · subst hk
        simp [naive_phi_use, ih.2]
      · rw [naive_phi_use]
        simp only [ih.2, hk, beq_iff_eq, if_false, ite_false]
        rw [ih.1]
        omega
    · rw [naive_phi_use]
      simp [ih.2]

/-- C10: every NaivePhiExpr that reaches assign_naive_phis — created by
create_dominated_node_state for a register in
locs_clobbered_until_dominator with a nonempty assembled source list, then
use()d at least once — satisfies the three assertions at the head of the
assign_naive_phis loop (translate.py lines 3918-3922): num_usages > 0, at
least two sources, and at least two parents of its node.  The hypotheses
record that d is the immediate dominator of the (reachable) child node,
that reg_sources produced (bsources, ud), that reg lies in the clobbered
set, that a dominator phi value contributes a nonempty source list, and
that the phi was created at all (nonempty sources, line 4644). -/
theorem C10_phi_assertions (g : CFG) (child d : Nat) (reg : Register)
    (bsources : List (Nat × Nat)) (ud : Bool)
    (domPart : Option (List (Nat × Nat)))
    (hidom : IsIdom g d child)
    (hreach : ∃ P, IsPath g P ∧ P.head? = some g.entry ∧
      P.getLast? = some child)
    (hloop : reg_sources g child d reg = (bsources, ud))
    (hlc : locs_clobbered_has g child d reg)
    (hdom : ∀ l, domPart = some l → l ≠ [])
    (hcreate : phiSources bsources ud domPart ≠ []) :
    2 ≤ (phiSources bsources ud domPart).length ∧
    2 ≤ (g.parents child).length ∧
    ∀ k : Nat,
      ((naive_phi_use^[k] ({} : NaivePhiUseState)).in_used_list = true ↔
        0 < k) ∧
      (naive_phi_use^[k] ({} : NaivePhiUseState)).num_usages = k := by
  rw [reg_sources] at hloop
  have hdc : d ≠ child := hidom.1
  refine ⟨?_, ?_, phi_use_iter⟩
  · -- at least two sources
    cases hudv : ud with
    | false =>
      subst hudv
      have hpse : phiSources bsources false domPart = bsources := by
        simp [phiSources]
      rw [hpse] at hcreate ⊢
      rcases hbs : bsources with _ | ⟨⟨w0, i0⟩, brest⟩
      · exact absurd hbs hcreate
      · cases brest with
        | cons p2 brest2 => simp
        | nil =>
          exfalso
          rw [hbs] at hloop
          have hSne2 : ([(w0, i0)] : List (Nat × Nat)) ≠ [] := by simp
          have hdomw : Dominates g w0 child := by
            intro P hP hh hl
            obtain ⟨w, i, t, hmem, hwP, _, _, _, _⟩ :=
              path_gives_source g reg child d [(w0, i0)] hloop hSne2 hdc
                P hP hl (hidom.2.1 P hP hh hl)
            have hwi : w = w0 ∧ i = i0 := by simpa using hmem
            exact hwi.1 ▸ hwP
          obtain ⟨P0, hP0, hh0, hl0⟩ := hreach
          obtain ⟨w, i, t0, hmem0, hwP0, hwd, hwc, hwt0, ht0⟩ :=
            path_gives_source g reg child d [(w0, i0)] hloop hSne2 hdc
              P0 hP0 hl0 (hidom.2.1 P0 hP0 hh0 hl0)
          have hwi : w = w0 ∧ i = i0 := by simpa using hmem0
          have hdomw2 : Dominates g w child := hwi.1 ▸ hdomw
          have hdomwd : Dominates g w d := hidom.2.2 w hwc hwd hdomw2
          by_cases hde : d = g.entry
          · have h2 := hdomwd [d] trivial (by simp [hde]) (by simp)
            have : w = d := by simpa using h2
            exact hwd this
          · by_cases hex : ∃ Pw, IsPath g Pw ∧ Pw.head? = some g.entry ∧
                Pw.getLast? = some w ∧ d ∉ Pw
            · obtain ⟨Pw, hPw, hhw, hlw, hdw⟩ := hex
              have hglue : IsPath g (Pw ++ (t0 ++ [child])) :=
                isPath_glue g Pw (t0 ++ [child]) w hPw hlw hwt0
              have hPwne : Pw ≠ [] := isPath_ne_nil g Pw hPw
              have hdmem := hidom.2.1 (Pw ++ (t0 ++ [child])) hglue
                (by rw [head?_append_left _ _ hPwne]; exact hhw)
                (by rw [getLast?_append_right _ _ (by simp)]; simp)
              rcases List.mem_append.mp hdmem with h | h
              · exact hdw h
              · rcases List.mem_append.mp h with h | h
                · exact (ht0 d h).1 rfl
                · have : d = child := by simpa using h
                  exact hdc this
            · push_neg at hex
              have hdomdw : Dominates g d w := fun Pw hPw hhw hlw =>
                hex Pw hPw hhw hlw
              obtain ⟨Pd, hPd, hhd, hld2⟩ := reach_idom g d child hidom.2.1
                hde P0 hP0 hh0 hl0
              exact dominates_antisymm g w d hwd hdomwd hdomdw Pd hPd hhd hld2
    | true =>
      subst hudv
      cases hdp : domPart with
      | none =>
        rw [hdp] at hcreate
        simp [phiSources] at hcreate
      | some l =>
        have hlne : l ≠ [] := hdom l hdp
        have hbne : bsources ≠ [] := by
          obtain ⟨B, hBR, hBW⟩ := hlc
          have hscB : g.scan reg B ≠ ScanResult.nothing :=
            scan_ne_nothing g reg B hBW
          have hBd : B ≠ d := backReachND_ne g d (g.parents child) B hBR
          rcases expands_of_backReach g reg d (g.parents child) B hBR with
            ⟨B2, hE, hB2d, hB2s⟩ | hEB
          · have hconc := (loop_complete g reg d [d] (g.parents child) []
              false bsources true hloop (Or.inr rfl) B2 hE).2
              (by simp [hB2d])
            cases hscw : g.scan reg B2 with
            | wrote i =>
              intro hnil
              have hm := hconc.2 i hscw
              rw [hnil] at hm
              simp at hm
            | clobbered => exact absurd hscw hconc.1
            | nothing => exact absurd hscw hB2s
          · have hconc := (loop_complete g reg d [d] (g.parents child) []
              false bsources true hloop (Or.inr rfl) B hEB).2
              (by simp [hBd])
            cases hscw : g.scan reg B with
            | wrote i =>
              intro hnil
              have hm := hconc.2 i hscw
              rw [hnil] at hm
              simp at hm
            | clobbered => exact absurd hscw hconc.1
            | nothing => exact absurd hscw hscB
        show 2 ≤ (phiSources bsources true (some l)).length
        simp only [phiSources, if_true, List.length_append]
        have h1 : 0 < bsources.length := List.length_pos.mpr hbne
        have h2 : 0 < l.length := List.length_pos.mpr hlne
        omega
  · -- at least two parents
    rcases hpc : g.parents child with _ | ⟨p, ps⟩
    · exfalso
      rw [hpc, regSourcesLoop] at hloop
      injection hloop with h1 h2
      rw [← h1, ← h2] at hcreate
      simp [phiSources] at hcreate
    · cases ps with
      | cons q qs => simp
      | nil =>
        exfalso
        by_cases hpd : p = d
        · obtain ⟨B, hBR, hBW⟩ := hlc
          rw [hpc, hpd] at hBR
          exact backReachND_single_dom g d B hBR
        · have hce : child ≠ g.entry := by
            intro h
            have h2 := hidom.2.1 [child] trivial (by simp [h]) (by simp)
            have : d = child := by simpa using h2
            exact hidom.1 this
          have hpc2 : p ≠ child := by
            intro hpcEq
            obtain ⟨P0, hP0, hh0, hl0⟩ := hreach
            exact no_self_parent_path g child hce (by rw [hpc, hpcEq])
              P0.length P0 rfl hP0 hh0 hl0
          have hdomp : Dominates g p child := by
            intro P hP hh hl
            cases P with
            | nil => simp at hh
            | cons a rest =>
              cases rest with
              | nil =>
                have hac : a = child := by simpa using hl
                have hae : a = g.entry := by simpa using hh
                exact absurd (hac ▸ hae) hce
              | cons b rest2 =>
                obtain ⟨s, q, heq⟩ :=
                  decomp_last_two (a :: b :: rest2) (by simp) child hl
                have hq : q ∈ g.parents child :=
                  (isPath_suffix g s (q :: [child]) (heq ▸ hP) (by simp)).1
                rw [hpc] at hq
                have hqp : q = p := by simpa using hq
                rw [heq]
                exact List.mem_append.mpr (Or.inr (by simp [hqp.symm]))
          have hdompd : Dominates g p d := hidom.2.2 p hpc2 hpd hdomp
          have hdomdp : Dominates g d p := by
            intro Pp hPp hhp hlp
            have hpp : IsPath g (p :: [child]) := ⟨by rw [hpc]; simp, trivial⟩
            have hglue : IsPath g (Pp ++ [child]) :=
              isPath_glue g Pp [child] p hPp hlp hpp
            have hmem := hidom.2.1 (Pp ++ [child]) hglue
              (by rw [head?_append_left _ _ (isPath_ne_nil g Pp hPp)]
                  exact hhp)
              (by simp)
            rcases List.mem_append.mp hmem with h | h
            · exact h
            · have : d = child := by simpa using h
              exact absurd this hidom.1
          by_cases hde : d = g.entry
          · have h2 := hdompd [d] trivial (by simp [hde]) (by simp)
            have : p = d := by simpa using h2
            exact hpd this
          · obtain ⟨P0, hP0, hh0, hl0⟩ := hreach
            obtain ⟨Pd, hPd, hhd, hld2⟩ := reach_idom g d child hidom.2.1
              hde P0 hP0 hh0 hl0
            exact dominates_antisymm g p d hpd hdompd hdomdp Pd hPd hhd hld2

def rDemo : Register := ⟨"v0"⟩

def wrDemo : Instruction := { inputs := [], outputs := [rDemo] }

/-- A diamond flow graph: entry 0 branches to 1 and 2, which join at 3;
blocks 1 and 2 both write rDemo. -/
def gDemo : CFG :=
  { entry := 0,
    parentsMap := [(1, [0]), (2, [0]), (3, [1, 2])],
    blockMap := [(1, [wrDemo]), (2, [wrDemo])] }

theorem c10_loop_eval :
    reg_sources gDemo 3 0 rDemo = ([(1, 0), (2, 0)], false) := by
  rw [reg_sources]
  rw [show gDemo.parents 3 = [1, 2] from rfl]
  rw [regSourcesLoop, dif_neg (by decide)]
  rw [show gDemo.scan rDemo 1 = ScanResult.wrote 0 from rfl]
  show regSourcesLoop gDemo rDemo 0 [1, 0] [2] [(1, 0)] (false || (1 == 0)) =
    ([(1, 0), (2, 0)], false)
  rw [regSourcesLoop, dif_neg (by decide)]
  rw [show gDemo.scan rDemo 2 = ScanResult.wrote 0 from rfl]
  show regSourcesLoop gDemo rDemo 0 [2, 1, 0] []
    [(1, 0), (2, 0)] ((false || (1 == 0)) || (2 == 0)) =
    ([(1, 0), (2, 0)], false)
  rw [regSourcesLoop]
  decide

/-- C10 witness: on the diamond graph, the phi for rDemo at the join node
has two sources and the join has two parents. -/
theorem C10_phi_assertions_witness :
    2 ≤ (phiSources [(1, 0), (2, 0)] false none).length ∧
    2 ≤ (gDemo.parents 3).length ∧
    ∀ k : Nat,
      ((naive_phi_use^[k] ({} : NaivePhiUseState)).in_used_list = true ↔
        0 < k) ∧
      (naive_phi_use^[k] ({} : NaivePhiUseState)).num_usages = k := by
  refine C10_phi_assertions gDemo 3 0 rDemo [(1, 0), (2, 0)] false none
    ⟨by decide, dominates_entry gDemo 3, ?_⟩
    ⟨[0, 1, 3], by decide, rfl, rfl⟩
    c10_loop_eval
    ⟨1, BackReachND.base (by decide) (by decide),
      wrDemo, by decide, Or.inl (by decide)⟩
    (by intro l h; exact Option.noConfusion h)
    (by decide)
  intro w hw3 hw0 hdw
  have m1 := hdw [0, 1, 3] (by decide) rfl rfl
  have m2 := hdw [0, 2, 3] (by decide) rfl rfl
  simp at m1 m2
  rcases m1 with h | h | h
  · exact absurd h hw0
  · rw [h] at m2
    simp at m2
  · exact absurd h hw3

end M2C
